import Mathlib

/-!
Verification of the ember-changeset repository: a shallow embedding of the
changeset engine (addon/changeset.js) and of the path-delete utility
(addon/utils/delete-key.js), together with theorems settling the frozen
claims about the natural-language specification.

JavaScript values are modelled by the inductive `Val`; plain objects are
insertion-ordered association lists of fields.  Mappings in the claims never
carry `length`/`size` fields and never use string-index exotics, so `jsGet`
on non-objects returns `undefined` and `Ember.isEmpty` on a plain mapping is
`false`; relays (the lazy nested proxies) are represented by the opaque
constructor `Val.relay` carrying the key they were created for.
-/

/-- Model of a JavaScript value as manipulated by ember-changeset. -/
inductive Val where
  | undef
  | null
  | bool (b : Bool)
  | num (n : Int)
  | str (s : String)
  | arr (elems : List Val)
  | obj (fields : List (String × Val))
  | relay (key : String)
  deriving Repr

mutual

/-- Structural equality test on modelled JavaScript values. -/
def Val.beq : Val → Val → Bool
  | .undef, .undef => true
  | .null, .null => true
  | .bool a, .bool b => a == b
  | .num a, .num b => a == b
  | .str a, .str b => a == b
  | .arr xs, .arr ys => Val.beqList xs ys
  | .obj fs, .obj gs => Val.beqFields fs gs
  | .relay a, .relay b => a == b
  | _, _ => false

def Val.beqList : List Val → List Val → Bool
  | [], [] => true
  | x :: xs, y :: ys => Val.beq x y && Val.beqList xs ys
  | _, _ => false

def Val.beqFields : List (String × Val) → List (String × Val) → Bool
  | [], [] => true
  | (k, v) :: fs, (l, w) :: gs => k == l && Val.beq v w && Val.beqFields fs gs
  | _, _ => false

end

mutual

theorem Val.eq_of_beq : ∀ {a b : Val}, Val.beq a b = true → a = b
  | .undef, .undef, _ => rfl
  | .null, .null, _ => rfl
  | .bool _, .bool _, h => by
      simp only [Val.beq, beq_iff_eq] at h; rw [h]
  | .num _, .num _, h => by
      simp only [Val.beq, beq_iff_eq] at h; rw [h]
  | .str _, .str _, h => by
      simp only [Val.beq, beq_iff_eq] at h; rw [h]
  | .arr xs, .arr ys, h => by
      rw [@Val.eqList_of_beq xs ys h]
  | .obj fs, .obj gs, h => by
      rw [@Val.eqFields_of_beq fs gs h]
  | .relay _, .relay _, h => by
      simp only [Val.beq, beq_iff_eq] at h; rw [h]

theorem Val.eqList_of_beq : ∀ {xs ys : List Val}, Val.beqList xs ys = true → xs = ys
  | [], [], _ => rfl
  | x :: xs, y :: ys, h => by
      simp only [Val.beqList, Bool.and_eq_true] at h
      rw [Val.eq_of_beq h.1, Val.eqList_of_beq h.2]

theorem Val.eqFields_of_beq :
    ∀ {fs gs : List (String × Val)}, Val.beqFields fs gs = true → fs = gs
  | [], [], _ => rfl
  | (k, v) :: fs, (l, w) :: gs, h => by
      simp only [Val.beqFields, Bool.and_eq_true, beq_iff_eq] at h
      rw [h.1.1, Val.eq_of_beq h.1.2, Val.eqFields_of_beq h.2]

end

mutual

theorem Val.beq_refl : ∀ a : Val, Val.beq a a = true
  | .undef => rfl
  | .null => rfl
  | .bool _ => by simp [Val.beq]
  | .num _ => by simp [Val.beq]
  | .str _ => by simp [Val.beq]
  | .arr xs => Val.beqList_refl xs
  | .obj fs => Val.beqFields_refl fs
  | .relay _ => by simp [Val.beq]

theorem Val.beqList_refl : ∀ xs : List Val, Val.beqList xs xs = true
  | [] => rfl
  | x :: xs => by
      simp only [Val.beqList, Bool.and_eq_true]
      exact ⟨Val.beq_refl x, Val.beqList_refl xs⟩

theorem Val.beqFields_refl : ∀ fs : List (String × Val), Val.beqFields fs fs = true
  | [] => rfl
  | (k, v) :: fs => by
      simp only [Val.beqFields, Bool.and_eq_true, beq_self_eq_true, true_and]
      exact ⟨Val.beq_refl v, Val.beqFields_refl fs⟩

end

instance : DecidableEq Val := fun a b =>
  if h : Val.beq a b = true then .isTrue (Val.eq_of_beq h)
  else .isFalse (fun he => h (he ▸ Val.beq_refl a))

deriving instance DecidableEq for Except

abbrev Fields := List (String × Val)

/-- Property lookup on a plain object (own properties). -/
def fget : Fields → String → Option Val
  | [], _ => none
  | p :: fs, k => if p.1 = k then some p.2 else fget fs k

/-- `hasOwnProperty`. -/
def fhasKey (fs : Fields) (k : String) : Bool :=
  (fget fs k).isSome

/-- JavaScript property assignment: updating an existing key keeps its
position in insertion order, a new key is appended. -/
def fset : Fields → String → Val → Fields
  | [], k, v => [(k, v)]
  | p :: fs, k, v => if p.1 = k then (k, v) :: fs else p :: fset fs k v

/-- `delete obj[k]`. -/
def fdel : Fields → String → Fields
  | [], _ => []
  | p :: fs, k => if p.1 = k then fdel fs k else p :: fdel fs k

/-- `Object.keys`. -/
def fkeys (fs : Fields) : List String :=
  fs.map Prod.fst

/-- `Ember.isNone`: `null` or `undefined`. -/
def isNoneV : Val → Bool
  | .undef => true
  | .null => true
  | _ => false

/-- `isObject` (utils/is-object): `Ember.typeOf` is `object` or `instance`;
plain mappings and Ember object instances such as relays qualify, arrays and
primitives do not. -/
def isObjectV : Val → Bool
  | .obj _ => true
  | .relay _ => true
  | _ => false

/-- `Ember.isArray`. -/
def isArrayV : Val → Bool
  | .arr _ => true
  | _ => false

/-- `Ember.isEmpty`: none-values, the empty string and the empty array are
empty; booleans, numbers and plain mappings (modelled without `length`/`size`
fields) are not. -/
def isEmptyV : Val → Bool
  | .undef => true
  | .null => true
  | .str s => s.data.isEmpty
  | .arr xs => xs.isEmpty
  | _ => false

/-- `Ember.isPresent`. -/
def isPresentV (v : Val) : Bool := !isEmptyV v

/-- JavaScript truthiness (used by `value || get(this, key)` in
`pushErrors`). -/
def jsTruthy : Val → Bool
  | .undef => false
  | .null => false
  | .bool b => b
  | .num n => n != 0
  | .str s => !s.data.isEmpty
  | _ => true

/-- Single-segment property read, `undefined` when absent or when the
receiver is not a mapping. -/
def jsGet (v : Val) (k : String) : Val :=
  match v with
  | .obj fs => (fget fs k).getD .undef
  | _ => (.undef)

/-- `hasOwnProperty` on a modelled value. -/
def hasOwnKey (v : Val) (k : String) : Bool :=
  match v with
  | .obj fs => fhasKey fs k
  | _ => false

def objFields : Val → Fields
  | .obj fs => fs
  | _ => []

/-- The dot separator used by the path utilities. -/
def DOT : String := "."

/-- Character-level implementation of `key.split('.')` on the decoded
character list (the library `String.splitOn` does not reduce in the
kernel). -/
def splitDotAux : List Char → List Char → List (List Char)
  | [], acc => [acc.reverse]
  | c :: cs, acc =>
      if c = '.' then acc.reverse :: splitDotAux cs []
      else splitDotAux cs (c :: acc)

/-- Segments of a dotted key, as the source computes them with
`key.split('.')`. -/
def segsOf (key : String) : List String :=
  (splitDotAux key.data []).map (fun cs => String.mk cs)

/-- `_recursivelyGet` walked over an explicit segment list: each intermediate
`get` that yields a none-value short-circuits to `undefined`; the final
segment's `get` is returned as-is. -/
def walkGet : Val → List String → Val
  | o, [] => o
  | o, [last] => jsGet o last
  | o, next :: rest =>
      let o' := jsGet o next
      if isNoneV o' then .undef else walkGet o' rest

/-- `_recursivelyGet(key, obj)` from the changeset: split the key on dots and
walk.  `Ember.get(content, key)` with a dotted path behaves the same way, so
this also models the `oldValue` lookup in `validateAndSet`. -/
def recursivelyGet (key : String) (o : Val) : Val :=
  walkGet o (segsOf key)

/-- Modelled from the spec: the `deep-set` utility
(ember-changeset/utils/deep-set) is not under src/.  Spec §4.1 `set`:
"walks/creates intermediate mapping levels as needed; the final segment's
value is assigned (replacing, not merging, any existing non-mapping value at
that slot)". -/
def deepSetSegs (o : Val) (segs : List String) (x : Val) : Val :=
  match segs with
  | [] => o
  | [k] =>
      match o with
      | .obj fs => .obj (fset fs k x)
      | _ => o
  | k :: rest =>
      match o with
      | .obj fs =>
          let child :=
            match fget fs k with
            | some (.obj cfs) => Val.obj cfs
            | _ => Val.obj []
          .obj (fset fs k (deepSetSegs child rest x))
      | _ => o

/-- `deepSet(obj, key, value)` with a dotted key. -/
def deepSetV (o : Val) (key : String) (x : Val) : Val :=
  deepSetSegs o (segsOf key) x

/-- Modelled from the spec: the `assign` utility (ember-changeset/utils/assign,
`pureAssign`) is not under src/.  Spec §2 "Plain-object helpers: shallow
merge/copy": `Object.assign({}, a, b)` — a fresh mapping holding `a`'s
entries overlaid with `b`'s. -/
def pureAssignF (a b : Fields) : Fields :=
  b.foldl (fun acc p => fset acc p.1 p.2) a

/-- Modelled from the spec: the `object-without` utility is not under src/.
Spec §2 "object minus a set of keys": drops the entries of `fs` whose key is
listed. -/
def objectWithoutF (ks : List String) (fs : Fields) : Fields :=
  fs.filter (fun p => !ks.contains p.1)

/-- Modelled from the spec: the `take` utility is not under src/.  Spec §2
"pick a subset of keys from a mapping". -/
def takeF (fs : Fields) (ks : List String) : Fields :=
  fs.filter (fun p => ks.contains p.1)

/-!
### The path-delete utility (`addon/utils/delete-key.js`)

`deleteKeysFromObject(object, keys, options)` shallow-copies the object (the
default `imutable` option) and runs, for each key to delete, a `for..in`
loop over the object's properties.  The changeset only ever calls it through
`deleteKey(obj, key)` with a single key, which the embedding specialises to.

Two modelling notes, both grounded in the source:
* `delete-key.js` imports its `isObject` from
  `ember-changeset/utils/is-changeset`, i.e. it is the *is-changeset*
  predicate; it is false on every plain mapping, so the recursive
  "delete inside nested objects" branch never fires for buffer values,
  which a changeset instance never is in the modelled value space.
* deleting a property of a primitive is a silent no-op, and `Object.keys`
  of a primitive is empty except for non-empty strings (whose keys are its
  character indices), which drives the upward-pruning check.
-/

/-- The `parts.length === 2` branch: delete the leaf under the top entry and
prune the top entry when its mapping becomes empty. -/
def twoSegDelete (fs : Fields) (p0 p1 : String) : Fields :=
  match fget fs p0 with
  | none => fs
  | some nested =>
    if isEmptyV nested then fs
    else
      match nested with
      | .obj nfs =>
          let nfs2 := fdel nfs p1
          if nfs2.isEmpty then fdel fs p0 else fset fs p0 (.obj nfs2)
      | .str _ => fs
      | .arr xs => if xs.length = 1 && p1 = "0" then fdel fs p0 else fs
      | .relay _ => fs
      | _ => fdel fs p0

/-- The `parts.length === 3` branch: delete only the leaf, no pruning.
Reading `nestedObjectRef[parts[1]]` and then deleting a property of it
raises a `TypeError` when that intermediate is `undefined` or `null`. -/
def threeSegDelete (fs : Fields) (p0 p1 p2 : String) : Except String Fields :=
  match fget fs p0 with
  | none => pure fs
  | some nested =>
    if isEmptyV nested then pure fs
    else
      let deepest := jsGet nested p1
      if isNoneV deepest then
        throw "TypeError: cannot delete a property of undefined"
      else
        match nested with
        | .obj nfs =>
            match fget nfs p1 with
            | some (.obj dfs) =>
                pure (fset fs p0 (.obj (fset nfs p1 (.obj (fdel dfs p2)))))
            | _ => pure fs
        | _ => pure fs

/-- One iteration of the `for (let prop in finalObject)` loop body for a
single key `elem`. -/
def delPropStep (elem : String) (fs : Fields) (p : String) : Except String Fields :=
  if !fhasKey fs p then pure fs
  else if elem = p then pure (fdel fs p)
  else
    match segsOf elem with
    | [_] => pure fs
    | [p0, p1] => pure (twoSegDelete fs p0 p1)
    | [p0, p1, p2] => threeSegDelete fs p0 p1 p2
    | parts => throw ("Nested level " ++ toString parts.length ++ " is not supported yet")

/-- The `for..in` loop over the property names captured at loop entry;
properties removed by earlier iterations are skipped. -/
def delPropLoop (elem : String) : List String → Fields → Except String Fields
  | [], fs => pure fs
  | p :: ps, fs => do
      let fs' ← delPropStep elem fs p
      delPropLoop elem ps fs'

/-- `deleteKeysFromObject(object, key)` for the single-key calls the
changeset makes (`deleteKey(obj, key)`).  The trailing
`isEmpty(finalObject) ? {} : finalObject` keeps the mapping, since
`Ember.isEmpty` is false on plain mappings. -/
def deleteKeysFromObject1 (o : Val) (elem : String) : Except String Val :=
  match o with
  | .obj fs => do
      let fs' ← delPropLoop elem (fkeys fs) fs
      pure (.obj fs')
  | v => pure v

/-- `_deleteKey(objName, key)` on the changeset: a none buffer is left
alone, otherwise the buffer is replaced by the delete-key result (the
`isEqual` guard around `set` does not change the resulting value). -/
def deleteKeyOp (buf : Val) (key : String) : Except String Val :=
  if isNoneV buf then pure buf else deleteKeysFromObject1 buf key

/-!
### The changeset engine (`addon/changeset.js`)

State is the content reference (identity modelled by `contentId`, value by
`content`), the changes and errors buffers (nested `Val` mappings), the
relay cache (the set of keys that currently hold a relay), the
running-validations counter and the `skipValidate` option.  The validator
function's identity is `validatorId`; its behaviour is supplied per write as
a `VOutcome` (the raw value it returned, synchronous or resolved from a
promise), since it is an arbitrary user function.
-/

structure Changeset where
  contentId : Nat
  validatorId : Nat
  content : Val
  changes : Val
  errors : Val
  relayCache : List String
  running : List (String × Int)
  skipValidate : Bool
  deriving Repr, DecidableEq

/-- `init()`: empty buffers, empty relay cache, no running validations. -/
def initChangeset (cid vid : Nat) (content : Val) (skip : Bool) : Changeset :=
  { contentId := cid, validatorId := vid, content := content,
    changes := .obj [], errors := .obj [], relayCache := [],
    running := [], skipValidate := skip }

/-- `valueFor(key)` (the target of `unknownProperty`, i.e. `read`): error
buffer, then relay cache, then changes buffer (walked, then as a literal own
property), then a relay for mapping-valued content, then the raw content
value.  The function is total: reading an unknown key yields `undefined`.
(`_relayFor` also inserts the relay into the cache; the cache update does
not change the returned value and is not modelled here.) -/
def valueFor (cs : Changeset) (key : String) : Val :=
  let error := recursivelyGet key cs.errors
  if !isNoneV error then jsGet error "value"
  else if cs.relayCache.contains key then .relay key
  else
    let change := recursivelyGet key cs.changes
    if !isNoneV change then change
    else if hasOwnKey cs.changes key then jsGet cs.changes key
    else
      let oldValue := recursivelyGet key cs.content
      if isObjectV oldValue then .relay key
      else oldValue

/-- `Ember.get(this, key)` on the changeset: each missing segment goes
through `unknownProperty`/`valueFor`; a relay met along the path delegates
to the owning changeset with the prefixed path (spec §4.3). -/
def changesetGetGo (cs : Changeset) : Val → String → List String → Val
  | cur, _, [] => cur
  | cur, pre, s :: rest =>
      match cur with
      | .relay _ =>
          let full := pre ++ DOT ++ s
          changesetGetGo cs (valueFor cs full) full rest
      | v => if isNoneV v then .undef else changesetGetGo cs (jsGet v s) (pre ++ DOT ++ s) rest

def changesetGet (cs : Changeset) (key : String) : Val :=
  match segsOf key with
  | [] => .undef
  | s :: rest => changesetGetGo cs (valueFor cs s) s rest

/-- An error record `{ value, validation }`. -/
def errRecord (v r : Val) : Val := .obj [("value", v), ("validation", r)]

/-- `addError(key, options)`: a non-mapping second argument is wrapped as
`{ value: get(this, key), validation: options }`; the pending change at
`key` is evicted, then the record is installed with `deepSet`. -/
def addError (cs : Changeset) (key : String) (options : Val) : Except String Changeset := do
  let options := if isObjectV options then options else errRecord (changesetGet cs key) options
  let changes' ← deleteKeyOp cs.changes key
  pure { cs with changes := changes', errors := deepSetV cs.errors key options }

/-- `Ember.set(obj, key, value)` with a (possibly dotted) path; a missing or
non-mapping intermediate makes the set fail. -/
def emberSetPath (o : Val) (segs : List String) (x : Val) : Except String Val :=
  match segs with
  | [] => pure o
  | [k] =>
      match o with
      | .obj fs => pure (.obj (fset fs k x))
      | _ => throw "Property set failed: receiver is not an object"
  | k :: rest =>
      match o with
      | .obj fs =>
          match fget fs k with
          | some child => do
              let child' ← emberSetPath child rest x
              pure (.obj (fset fs k child'))
          | none => throw "Property set failed: object in path could not be found"
      | _ => throw "Property set failed: receiver is not an object"

/-- `pushErrors(key, ...newErrors)`: read the existing record (or the
default), promote a present scalar validation to a list, append the new
messages, fall back to the currently read value when the stored one is
falsy, evict the pending change, and store the combined record.  Spreading
a null/undefined/non-iterable existing validation raises a `TypeError`. -/
def pushErrors (cs : Changeset) (key : String) (newErrors : List Val) :
    Except String Changeset := do
  let existing := recursivelyGet key cs.errors
  let existingError := if jsTruthy existing then existing else errRecord .null (.arr [])
  let validation0 := jsGet existingError "validation"
  let value0 := jsGet existingError "value"
  let value := if jsTruthy value0 then value0 else changesetGet cs key
  let promoted := if !isArrayV validation0 && isPresentV validation0
                  then Val.arr [validation0] else validation0
  let spreadList ←
    match promoted with
    | .arr xs => pure xs
    | .str s => if s.data.isEmpty then pure ([] : List Val)
                else pure (s.data.map (fun c => Val.str (String.mk [c])))
    | _ => throw "TypeError: existing validation is not iterable"
  let changes' ← deleteKeyOp cs.changes key
  let errors' ← emberSetPath cs.errors (segsOf key) (errRecord value (.arr (spreadList ++ newErrors)))
  pure { cs with changes := changes', errors := errors' }

/-- The `__ember_meta__` values scrub in `_setProperty`'s accepted branch:
on plain mapping buffers (no framework metadata) it is the identity. -/
def emberMetaScrub (errors : Val) (key : String) : Val :=
  match errors with
  | .obj fs =>
      match fget fs "__ember_meta__" with
      | some (.obj mfs) =>
          match fget mfs "values" with
          | some (.obj vfs) =>
              .obj (fset fs "__ember_meta__" (.obj (fset mfs "values" (.obj (fdel vfs key)))))
          | _ => errors
      | _ => errors
  | _ => errors

/-- Does `_setProperty` accept this validation result?  `true`, or an array
whose single element is exactly `true`. -/
def acceptedValidation (validation : Val) : Bool :=
  validation = .bool true || validation = .arr [.bool true]

/-- `_setProperty(validation, { key, value, oldValue })`. -/
def setPropertyStep (cs : Changeset) (validation : Val) (key : String)
    (value oldValue : Val) : Except String Changeset :=
  if acceptedValidation validation then do
    let errors' ← deleteKeyOp cs.errors key
    let cs := { cs with errors := errors' }
    let cs ←
      if !(oldValue = value : Bool) then
        pure { cs with changes := deepSetV cs.changes key value }
      else if hasOwnKey cs.changes key then do
        let changes' ← deleteKeyOp cs.changes key
        pure { cs with changes := changes' }
      else pure cs
    pure { cs with errors := emberMetaScrub cs.errors key }
  else
    addError cs key (errRecord value validation)

/-- The `beforeValidation` / `afterValidation` events. -/
inductive VEvent where
  | beforeValidation (key : String)
  | afterValidation (key : String)
  deriving Repr, DecidableEq

/-- What the changeset-wide validator produced for one write: a raw value
returned synchronously, or a promise together with the value it resolves
to.  (A rejected validation promise never reaches `_setProperty`; claims
only concern settled validations.) -/
inductive VOutcome where
  | sync (raw : Val)
  | async (resolved : Val)
  deriving Repr, DecidableEq

/-- `_validate`'s result coercion: an absent (`isPresent`-failing) validator
return is coerced to `true`. -/
def coerceValidation (raw : Val) : Val :=
  if isPresentV raw then raw else .bool true

def rvCount (rv : List (String × Int)) (k : String) : Int :=
  (((rv.find? (fun p => p.1 = k)).map Prod.snd)).getD 0

def rvSet (rv : List (String × Int)) (k : String) (n : Int) : List (String × Int) :=
  if (rv.find? (fun p => p.1 = k)).isSome
  then rv.map (fun p => if p.1 = k then (k, n) else p)
  else rv ++ [(k, n)]

def rvDel (rv : List (String × Int)) (k : String) : List (String × Int) :=
  rv.filter (fun p => p.1 ≠ k)

/-- `_setIsValidating(key, value)`: increment, or decrement with removal at
count one. -/
def setIsValidating (cs : Changeset) (key : String) (value : Bool) : Changeset :=
  let count := rvCount cs.running key
  if value then { cs with running := rvSet cs.running key (count + 1) }
  else if count = 1 then { cs with running := rvDel cs.running key }
  else { cs with running := rvSet cs.running key (count - 1) }

/-- `validateAndSet(key, value)` (`write`), run to completion, returning the
updated changeset and the list of events it emitted.  With `skipValidate`
set, `_setProperty(true, { key, value })` is called with no `oldValue` (so
the equality check compares against `undefined`) and no events fire.  A
synchronous validator result is coerced by `_validate`; a promise passes
`isPresent` and is not coerced, its resolved value reaching `_setProperty`
unchanged after the running counter toggles and both events fire. -/
def validateAndSet (cs : Changeset) (key : String) (value : Val) (outcome : VOutcome) :
    Except String (Changeset × List VEvent) := do
  let oldValue := recursivelyGet key cs.content
  if cs.skipValidate then
    let cs' ← setPropertyStep cs (.bool true) key value .undef
    pure (cs', [])
  else
    match outcome with
    | .sync raw =>
        let validation := coerceValidation raw
        let cs' ← setPropertyStep cs validation key value oldValue
        pure (cs', [.beforeValidation key, .afterValidation key])
    | .async resolved =>
        let cs := setIsValidating cs key true
        let cs := setIsValidating cs key false
        let cs' ← setPropertyStep cs resolved key value oldValue
        pure (cs', [.beforeValidation key, .afterValidation key])

/-- `isValid` ⇔ the errors buffer has no keys (`isEmptyObject`). -/
def isValidB (cs : Changeset) : Bool := (objFields cs.errors).isEmpty

/-- `isPristine` ⇔ the changes buffer has no keys. -/
def isPristineB (cs : Changeset) : Bool := (objFields cs.changes).isEmpty

def isDirtyB (cs : Changeset) : Bool := !isPristineB cs

/-- `Ember.setProperties(content, changes)`: one `set` per own key of the
changes buffer, in insertion order. -/
def setPropertiesV (content : Val) (changes : Fields) : Except String Val :=
  changes.foldlM (fun acc p => emberSetPath acc (segsOf p.1) p.2) content

/-- `execute()`: assign the changes into the content iff currently valid and
dirty; always returns the changeset. -/
def execute (cs : Changeset) : Except String Changeset :=
  if isValidB cs && isDirtyB cs then do
    let content' ← setPropertiesV cs.content (objFields cs.changes)
    pure { cs with content := content' }
  else
    pure cs

/-- `rollback()`: both buffers are reset to empty mappings. -/
def rollback (cs : Changeset) : Changeset :=
  { cs with changes := .obj [], errors := .obj [] }

/-- What `save` resolves with. -/
inductive SaveResult where
  | selfChangeset
  | value (v : Val)
  deriving Repr, DecidableEq

/-- `save(options)`: execute, then delegate to the content's save function
when it has one.  The underlying save is modelled as a function of the
(executed) content and the options, returning a resolution or a rejection.
The outer layer is the changeset's own possible exception; the inner
`Except` is the promise returned to the caller. -/
def save (cs : Changeset) (saveFn : Option (Val → Val → Except String Val)) (opts : Val) :
    Except String (Changeset × Except String SaveResult) := do
  let cs1 ← execute cs
  match saveFn with
  | none => pure (rollback cs1, .ok .selfChangeset)
  | some f =>
      match f cs1.content opts with
      | .ok r => pure (rollback cs1, .ok (.value r))
      | .error e => pure (cs1, .error e)

/-- The argument handed to `merge`: another changeset, or something that is
not a changeset at all. -/
inductive MergeArg where
  | changesetArg (b : Changeset)
  | nonChangeset (v : Val)

/-- `merge(changeset)`. -/
def merge (a : Changeset) (arg : MergeArg) : Except String Changeset :=
  match arg with
  | .nonChangeset _ => throw "Cannot merge with a non-changeset"
  | .changesetArg b =>
      if b.contentId ≠ a.contentId then
        throw "Cannot merge with a changeset of different content"
      else if isPristineB a && isPristineB b then pure a
      else
        let changesA := objFields a.changes
        let changesB := objFields b.changes
        let errorsA := objFields a.errors
        let errorsB := objFields b.errors
        let newErrors := objectWithoutF (fkeys changesB) errorsA
        let newChanges := objectWithoutF (fkeys errorsB) changesA
        let mergedChanges := pureAssignF newChanges changesB
        let mergedErrors := pureAssignF newErrors errorsB
        pure { contentId := a.contentId, validatorId := a.validatorId,
               content := a.content, changes := .obj mergedChanges,
               errors := .obj mergedErrors, relayCache := [], running := [],
               skipValidate := false }

/-- `snapshot()` at the value level: the pair of buffer values.  (The
aliasing behaviour of the shallow copy is modelled separately on the heap
model below.) -/
def snapshotOf (cs : Changeset) : Val × Val := (cs.changes, cs.errors)

/-- `restore({ changes, errors })`: both buffers replaced wholesale. -/
def restore (cs : Changeset) (changes errors : Val) : Changeset :=
  { cs with changes := changes, errors := errors }

/-- `cast(allowed)`: with a non-empty allow list the changes buffer keeps
only the allowed keys; with an empty list nothing is replaced. -/
def castChangeset (cs : Changeset) (allowed : List String) : Changeset :=
  if allowed.isEmpty then cs
  else { cs with changes := .obj (takeF (objFields cs.changes) allowed) }

/-!
### Buffer-mutating operation sequences

For the buffer invariant claims, the buffer-mutating operations are reified:
`write` is `validateAndSet` with the validator's outcome supplied as data
(`validate(key)` runs `validateAndSet(key, valueFor(key))` per key and is
subsumed by `write`), and `addError`/`pushErrors` carry their arguments. -/

inductive COp where
  | write (key : String) (value : Val) (outcome : VOutcome)
  | addErr (key : String) (options : Val)
  | pushErr (key : String) (msgs : List Val)

def COp.key : COp → String
  | .write k _ _ => k
  | .addErr k _ => k
  | .pushErr k _ => k

def applyOp (cs : Changeset) : COp → Except String Changeset
  | .write k v out => (validateAndSet cs k v out).map Prod.fst
  | .addErr k o => addError cs k o
  | .pushErr k ms => pushErrors cs k ms

def runOps (cs : Changeset) : List COp → Except String Changeset
  | [] => pure cs
  | op :: ops => do runOps (← applyOp cs op) ops

/-!
### A heap model for the snapshot aliasing claim

`snapshot()` copies the buffers with `pureAssign` (a shallow
`Object.assign({}, obj)`), and the `deep-set` used by `write` mutates nested
mapping levels in place, so object identity matters for claim C7.  Heap
objects are numbered references; fields hold either a primitive value or a
reference to another heap object. -/

inductive HVal where
  | prim (v : Val)
  | ref (r : Nat)
  deriving Repr, DecidableEq

abbrev HObj := List (String × HVal)

abbrev Heap := List (Nat × HObj)

def hfind : Heap → Nat → Option HObj
  | [], _ => none
  | p :: h, r => if p.1 = r then some p.2 else hfind h r

def hstore : Heap → Nat → HObj → Heap
  | [], r, o => [(r, o)]
  | p :: h, r, o => if p.1 = r then (r, o) :: h else p :: hstore h r o

/-- A reference unused by the heap. -/
def freshRef (h : Heap) : Nat :=
  (h.map Prod.fst).foldr max 0 + 1

def hoGet : HObj → String → Option HVal
  | [], _ => none
  | p :: fs, k => if p.1 = k then some p.2 else hoGet fs k

def hoSet : HObj → String → HVal → HObj
  | [], k, v => [(k, v)]
  | p :: fs, k, v => if p.1 = k then (k, v) :: fs else p :: hoSet fs k v

/-- `pureAssign(obj)` on the heap: allocate a fresh object carrying the same
field list — nested references are shared, not copied. -/
def pureAssignH (h : Heap) (r : Nat) : Heap × Nat :=
  let r' := freshRef h
  (hstore h r' ((hfind h r).getD []), r')

/-- `deepSet` on the heap: walk the segments through references, creating a
fresh empty mapping for a missing or non-reference intermediate, and assign
the final segment in place. -/
def deepSetH (h : Heap) (r : Nat) (segs : List String) (x : Val) : Heap :=
  match segs with
  | [] => h
  | [k] => hstore h r (hoSet ((hfind h r).getD []) k (.prim x))
  | k :: rest =>
      match hoGet ((hfind h r).getD []) k with
      | some (.ref r') => deepSetH h r' rest x
      | _ =>
          let r' := freshRef h
          let h := hstore h r' []
          let h := hstore h r (hoSet ((hfind h r).getD []) k (.ref r'))
          deepSetH h r' rest x

/-- Reading a dotted path through the heap. -/
def hreadPath (h : Heap) (r : Nat) : List String → Option Val
  | [] => none
  | [k] =>
      match hoGet ((hfind h r).getD []) k with
      | some (.prim v) => some v
      | _ => none
  | k :: rest =>
      match hoGet ((hfind h r).getD []) k with
      | some (.ref r') => hreadPath h r' rest
      | _ => none

/-- `snapshot()` on the heap: shallow-copy both buffer objects. -/
def snapshotH (h : Heap) (changesRef errorsRef : Nat) : Heap × Nat × Nat :=
  let (h1, sc) := pureAssignH h changesRef
  let (h2, se) := pureAssignH h1 errorsRef
  (h2, sc, se)

/-! ### Lemmas about the field operations -/

theorem fget_fdel (fs : Fields) (x j : String) :
    fget (fdel fs x) j = if j = x then none else fget fs j := by
  induction fs with
  | nil => simp [fdel, fget]
  | cons p fs ih =>
      by_cases hpx : p.1 = x
      · rw [show fdel (p :: fs) x = fdel fs x by simp [fdel, hpx], ih]
        by_cases hjx : j = x
        · simp [hjx]
        · have hpj : ¬ p.1 = j := fun h => hjx (by rw [← h, hpx])
          simp [fget, hjx, hpj]
      · rw [show fdel (p :: fs) x = p :: fdel fs x by simp [fdel, hpx]]
        by_cases hpj : p.1 = j
        · have hjx : ¬ j = x := fun h => hpx (by rw [hpj, h])
          simp [fget, hpj, hjx]
        · simp [fget, hpj, ih]

theorem fget_fset (fs : Fields) (x j : String) (v : Val) :
    fget (fset fs x v) j = if j = x then some v else fget fs j := by
  induction fs with
  | nil =>
      by_cases hjx : j = x
      · simp [fset, fget, hjx]
      · have hxj : ¬ x = j := fun h => hjx h.symm
        simp [fset, fget, hjx, hxj]
  | cons p fs ih =>
      by_cases hpx : p.1 = x
      · rw [show fset (p :: fs) x v = (x, v) :: fs by simp [fset, hpx]]
        by_cases hjx : j = x
        · simp [fget, hjx]
        · have hpj : ¬ p.1 = j := fun h => hjx (by rw [← h, hpx])
          have hxj : ¬ x = j := fun h => hjx h.symm
          simp [fget, hjx, hpj, hxj]
      · rw [show fset (p :: fs) x v = p :: fset fs x v by simp [fset, hpx]]
        by_cases hpj : p.1 = j
        · have hjx : ¬ j = x := fun h => hpx (by rw [hpj, h])
          simp [fget, hpj, hjx]
        · simp [fget, hpj, ih]

theorem fdel_eq_self {fs : Fields} {x : String} (h : fget fs x = none) :
    fdel fs x = fs := by
  induction fs with
  | nil => rfl
  | cons p fs ih =>
      by_cases hpx : p.1 = x
      · simp [fget, hpx] at h
      · simp [fget, hpx] at h
        simp [fdel, hpx, ih h]

theorem fset_eq_self {fs : Fields} {x : String} {v : Val} (h : fget fs x = some v) :
    fset fs x v = fs := by
  induction fs with
  | nil => simp [fget] at h
  | cons p fs ih =>
      cases p with
      | mk q w =>
          by_cases hqx : q = x
          · have hw : w = v := by simpa [fget, hqx] using h
            simp [fset, hqx, hw]
          · have h' : fget fs x = some v := by simpa [fget, hqx] using h
            simp [fset, hqx, ih h']

theorem fget_isSome_of_mem {fs : Fields} {k : String} (h : k ∈ fkeys fs) :
    (fget fs k).isSome := by
  induction fs with
  | nil => simp [fkeys] at h
  | cons p fs ih =>
      by_cases hpk : p.1 = k
      · simp [fget, hpk]
      · rcases List.mem_cons.mp h with h' | h'
        · exact absurd h'.symm hpk
        · simp [fget, hpk]
          exact ih h'

theorem mem_of_fget_isSome {fs : Fields} {k : String} (h : (fget fs k).isSome) :
    k ∈ fkeys fs := by
  induction fs with
  | nil => simp [fget] at h
  | cons p fs ih =>
      by_cases hpk : p.1 = k
      · exact List.mem_cons.mpr (Or.inl hpk.symm)
      · simp [fget, hpk] at h
        exact List.mem_cons.mpr (Or.inr (ih h))

theorem fs_eq_nil_of_no_keys {fs : Fields} (h : ∀ q, fget fs q = none) : fs = [] := by
  cases fs with
  | nil => rfl
  | cons p fs => have := h p.1; simp [fget] at this

/-! ### Lemmas about paths, walking and deep-set -/

theorem splitDotAux_ne_nil (cs acc : List Char) : splitDotAux cs acc ≠ [] := by
  induction cs generalizing acc with
  | nil => simp [splitDotAux]
  | cons c cs ih =>
      by_cases hc : c = '.' <;> simp [splitDotAux, hc, ih]

theorem segsOf_ne_nil (key : String) : segsOf key ≠ [] := by
  simp [segsOf, splitDotAux_ne_nil]

/-- `jsGet` on anything that is not a mapping yields `undefined`. -/
theorem jsGet_nonobj {o : Val} (h : ∀ gs, o ≠ .obj gs) (k : String) :
    jsGet o k = .undef := by
  cases o <;> first | rfl | exact absurd rfl (h _)

/-- Walking any non-empty path into a non-mapping yields a none-value. -/
theorem walkGet_nonobj {o : Val} (h : ∀ gs, o ≠ .obj gs) :
    ∀ {segs : List String}, segs ≠ [] → isNoneV (walkGet o segs) = true := by
  intro segs hs
  match segs with
  | [last] => rw [walkGet, jsGet_nonobj h]; rfl
  | next :: s2 :: rest =>
      have hw : walkGet o (next :: s2 :: rest) =
          (if isNoneV (jsGet o next) then .undef else walkGet (jsGet o next) (s2 :: rest)) := rfl
      rw [hw, jsGet_nonobj h]
      rfl

/-- `deepSet` into a mapping returns a mapping. -/
theorem deepSetSegs_isObj (fs : Fields) (x : Val) :
    ∀ (segs : List String), segs ≠ [] →
      ∃ gs, deepSetSegs (.obj fs) segs x = .obj gs := by
  intro segs hne
  match segs with
  | [k] => exact ⟨fset fs k x, rfl⟩
  | k :: s2 :: r2 => exact ⟨_, rfl⟩

/-- After a `deepSet` along a non-empty path into a mapping, walking the same
path reads back exactly the stored value. -/
theorem deepSet_walkGet :
    ∀ (segs : List String) (fs : Fields) (x : Val), segs ≠ [] →
      walkGet (deepSetSegs (.obj fs) segs x) segs = x := by
  intro segs
  induction segs with
  | nil => intro fs x h; exact absurd rfl h
  | cons k rest ih =>
      intro fs x _
      cases rest with
      | nil => simp [deepSetSegs, walkGet, jsGet, fget_fset]
      | cons s2 r2 =>
          obtain ⟨cfs, hcfs⟩ : ∃ cfs, (match fget fs k with
              | some (.obj cfs) => Val.obj cfs
              | _ => Val.obj []) = Val.obj cfs := by
            rcases fget fs k with _ | v
            · exact ⟨[], rfl⟩
            · cases v <;> first | exact ⟨[], rfl⟩ | exact ⟨_, rfl⟩
          have hstep : deepSetSegs (.obj fs) (k :: s2 :: r2) x =
              .obj (fset fs k (deepSetSegs (.obj cfs) (s2 :: r2) x)) := by
            simp only [deepSetSegs]
            rw [hcfs]
          obtain ⟨gs, hgs⟩ := deepSetSegs_isObj cfs x (s2 :: r2) (by simp)
          have hget : jsGet (Val.obj (fset fs k (deepSetSegs (.obj cfs) (s2 :: r2) x))) k =
              deepSetSegs (.obj cfs) (s2 :: r2) x := by
            simp [jsGet, fget_fset]
          rw [hstep]
          show (let o' := jsGet (Val.obj (fset fs k (deepSetSegs (.obj cfs) (s2 :: r2) x))) k
                if isNoneV o' then .undef else walkGet o' (s2 :: r2)) = x
          rw [hget, hgs]
          show walkGet (Val.obj gs) (s2 :: r2) = x
          rw [← hgs]
          exact ih cfs x (by simp)

/-! ### Lemmas about the delete-key loop -/

theorem walkGet_pair (o : Val) (a b : String) :
    walkGet o [a, b] = (if isNoneV (jsGet o a) then .undef else jsGet (jsGet o a) b) := rfl

theorem walkGet_triple (o : Val) (a b c : String) :
    walkGet o [a, b, c] =
      (if isNoneV (jsGet o a) then .undef
       else if isNoneV (jsGet (jsGet o a) b) then .undef
       else jsGet (jsGet (jsGet o a) b) c) := rfl

/-- After the two-segment delete branch, walking the deleted path yields a
none-value, whatever the shape of the buffer was. -/
theorem twoSeg_walkNone (fs : Fields) (a b : String) :
    isNoneV (walkGet (.obj (twoSegDelete fs a b)) [a, b]) = true := by
  unfold twoSegDelete
  rcases hga : fget fs a with _ | nested
  · simp [walkGet_pair, jsGet, hga, isNoneV]
  · cases nested <;>
      simp [walkGet_pair, jsGet, hga, isNoneV, isEmptyV, fget_fdel, fget_fset] <;>
      split_ifs <;>
      simp_all [walkGet_pair, jsGet, hga, isNoneV, fget_fdel, fget_fset]

/-- When the three-segment delete branch completes without raising, walking
the deleted path yields a none-value. -/
theorem threeSeg_walkNone {fs fs' : Fields} {a b c : String}
    (h : threeSegDelete fs a b c = .ok fs') :
    isNoneV (walkGet (.obj fs') [a, b, c]) = true := by
  unfold threeSegDelete at h
  rcases hga : fget fs a with _ | nested
  · rw [hga] at h
    cases h
    simp [walkGet_triple, jsGet, hga, isNoneV]
  · rw [hga] at h
    cases nested with
    | undef =>
        simp only [isEmptyV, if_true, pure, Except.pure, Except.ok.injEq] at h
        subst h
        simp [walkGet_triple, jsGet, hga, isNoneV]
    | null =>
        simp only [isEmptyV, if_true, pure, Except.pure, Except.ok.injEq] at h
        subst h
        simp [walkGet_triple, jsGet, hga, isNoneV]
    | bool bb => simp [isEmptyV, isNoneV, jsGet, throw, throwThe, MonadExceptOf.throw] at h
    | num n => simp [isEmptyV, isNoneV, jsGet, throw, throwThe, MonadExceptOf.throw] at h
    | relay rk => simp [isEmptyV, isNoneV, jsGet, throw, throwThe, MonadExceptOf.throw] at h
    | str s =>
        cases hs : s.data.isEmpty with
        | true =>
            simp only [isEmptyV, hs, if_true, pure, Except.pure, Except.ok.injEq] at h
            subst h
            simp [walkGet_triple, jsGet, hga, isNoneV]
        | false =>
            simp [isEmptyV, hs, isNoneV, jsGet, throw, throwThe, MonadExceptOf.throw] at h
    | arr xs =>
        cases hxs : xs.isEmpty with
        | true =>
            simp only [isEmptyV, hxs, if_true, pure, Except.pure, Except.ok.injEq] at h
            subst h
            simp [walkGet_triple, jsGet, hga, isNoneV]
        | false =>
            simp [isEmptyV, hxs, isNoneV, jsGet, throw, throwThe, MonadExceptOf.throw] at h
    | obj nfs =>
        rcases hgb : fget nfs b with _ | w
        · simp [isEmptyV, isNoneV, jsGet, hgb, throw, throwThe, MonadExceptOf.throw] at h
        · cases w with
          | undef => simp [isEmptyV, isNoneV, jsGet, hgb, throw, throwThe, MonadExceptOf.throw] at h
          | null => simp [isEmptyV, isNoneV, jsGet, hgb, throw, throwThe, MonadExceptOf.throw] at h
          | obj dfs =>
              simp only [isEmptyV, isNoneV, jsGet, hgb, Option.getD, if_false, Bool.false_eq_true,
                pure, Except.pure, Except.ok.injEq] at h
              subst h
              simp [walkGet_triple, jsGet, fget_fset, fget_fdel, isNoneV]
          | bool bb =>
              simp only [isEmptyV, isNoneV, jsGet, hgb, Option.getD, if_false, Bool.false_eq_true,
                pure, Except.pure, Except.ok.injEq] at h
              subst h
              simp [walkGet_triple, jsGet, hga, hgb, isNoneV]
          | num n =>
              simp only [isEmptyV, isNoneV, jsGet, hgb, Option.getD, if_false, Bool.false_eq_true,
                pure, Except.pure, Except.ok.injEq] at h
              subst h
              simp [walkGet_triple, jsGet, hga, hgb, isNoneV]
          | str s =>
              simp only [isEmptyV, isNoneV, jsGet, hgb, Option.getD, if_false, Bool.false_eq_true,
                pure, Except.pure, Except.ok.injEq] at h
              subst h
              simp [walkGet_triple, jsGet, hga, hgb, isNoneV]
          | arr xs =>
              simp only [isEmptyV, isNoneV, jsGet, hgb, Option.getD, if_false, Bool.false_eq_true,
                pure, Except.pure, Except.ok.injEq] at h
              subst h
              simp [walkGet_triple, jsGet, hga, hgb, isNoneV]
          | relay rk =>
              simp only [isEmptyV, isNoneV, jsGet, hgb, Option.getD, if_false, Bool.false_eq_true,
                pure, Except.pure, Except.ok.injEq] at h
              subst h
              simp [walkGet_triple, jsGet, hga, hgb, isNoneV]

theorem fget_fdel_cases (fs : Fields) (x j : String) :
    fget (fdel fs x) j = none ∨ fget (fdel fs x) j = fget fs j := by
  rw [fget_fdel]; split_ifs <;> simp

/-- The delete loop for an undotted key reduces to deleting the literal own
property. -/
theorem delLoop_undotted {elem x : String} (hu : segsOf elem = [x]) :
    ∀ (ps : List String) (fs : Fields),
      delPropLoop elem ps fs = .ok (if ps.contains elem then fdel fs elem else fs) := by
  intro ps
  induction ps with
  | nil => intro fs; rfl
  | cons p ps ih =>
      intro fs
      show (do
        let fs1 ← delPropStep elem fs p
        delPropLoop elem ps fs1) = _
      by_cases hkey : fhasKey fs p = true
      · by_cases hep : elem = p
        · have hstep : delPropStep elem fs p = .ok (fdel fs p) := by
            simp [delPropStep, hkey, hep, pure, Except.pure]
          rw [hstep]
          show delPropLoop elem ps (fdel fs p) = _
          rw [ih (fdel fs p)]
          have hdd : fdel (fdel fs elem) elem = fdel fs elem :=
            fdel_eq_self (by rw [fget_fdel]; simp)
          subst hep
          simp [hdd]
        · have hstep : delPropStep elem fs p = .ok fs := by
            simp [delPropStep, hkey, hep, hu, pure, Except.pure]
          rw [hstep]
          show delPropLoop elem ps fs = _
          rw [ih fs]
          simp [List.contains_cons, fun h : elem = p => hep h]
      · have hstep : delPropStep elem fs p = .ok fs := by
          simp [delPropStep, hkey, pure, Except.pure]
        rw [hstep]
        show delPropLoop elem ps fs = _
        rw [ih fs]
        by_cases hep : elem = p
        · subst hep
          have hnone : fget fs elem = none := by
            rcases hq : fget fs elem with _ | v
            · rfl
            · exact absurd (by simp [fhasKey, hq]) hkey
          simp [fdel_eq_self hnone]
        · simp [List.contains_cons, fun h : elem = p => hep h]

theorem deleteKeysFromObject1_undotted (fs : Fields) {elem x : String}
    (hu : segsOf elem = [x]) :
    deleteKeysFromObject1 (.obj fs) elem = .ok (.obj (fdel fs elem)) := by
  show (do
    let fs' ← delPropLoop elem (fkeys fs) fs
    pure (Val.obj fs')) = _
  rw [delLoop_undotted hu (fkeys fs) fs]
  by_cases hc : (fkeys fs).contains elem = true
  · rw [if_pos hc]; rfl
  · rw [if_neg hc]
    have hnone : fget fs elem = none := by
      rcases hq : fget fs elem with _ | v
      · rfl
      · exact absurd (by simpa using @mem_of_fget_isSome fs elem (by simp [hq])) hc
    rw [fdel_eq_self hnone]
    rfl

theorem deleteKeyOp_obj (fs : Fields) (k : String) :
    deleteKeyOp (.obj fs) k = deleteKeysFromObject1 (.obj fs) k := by
  simp [deleteKeyOp, isNoneV]

theorem splitDotAux_singleton :
    ∀ {cs acc l : List Char}, splitDotAux cs acc = [l] → l = acc.reverse ++ cs := by
  intro cs
  induction cs with
  | nil => intro acc l h; simp [splitDotAux] at h; simp [h.symm]
  | cons c cs ih =>
      intro acc l h
      by_cases hc : c = '.'
      · rw [show splitDotAux (c :: cs) acc = acc.reverse :: splitDotAux cs [] by
          simp [splitDotAux, hc]] at h
        cases hsp : splitDotAux cs [] with
        | nil => exact absurd hsp (splitDotAux_ne_nil cs [])
        | cons l2 ls => rw [hsp] at h; simp at h
      · rw [show splitDotAux (c :: cs) acc = splitDotAux cs (c :: acc) by
          simp [splitDotAux, hc]] at h
        have := ih h
        simpa using this

theorem segsOf_singleton {k x : String} (h : segsOf k = [x]) : x = k := by
  unfold segsOf at h
  cases hsp : splitDotAux k.data [] with
  | nil => exact absurd hsp (splitDotAux_ne_nil k.data [])
  | cons l ls =>
      rw [hsp] at h
      simp at h
      obtain ⟨hx, hls⟩ := h
      subst hls
      have hl : l = [].reverse ++ k.data := splitDotAux_singleton hsp
      simp at hl
      rw [← hx, hl]

theorem walkNone_pair_fdel {fs : Fields} {a b : String} (x : String)
    (h : isNoneV (walkGet (.obj fs) [a, b]) = true) :
    isNoneV (walkGet (.obj (fdel fs x)) [a, b]) = true := by
  rw [walkGet_pair] at h ⊢
  rcases fget_fdel_cases fs x a with hc | hc
  · simp [jsGet, hc, isNoneV]
  · simp only [jsGet, hc] at *
    exact h

theorem walkNone_triple_fdel {fs : Fields} {a b c : String} (x : String)
    (h : isNoneV (walkGet (.obj fs) [a, b, c]) = true) :
    isNoneV (walkGet (.obj (fdel fs x)) [a, b, c]) = true := by
  rw [walkGet_triple] at h ⊢
  rcases fget_fdel_cases fs x a with hc | hc
  · simp [jsGet, hc, isNoneV]
  · simp only [jsGet, hc] at *
    exact h

theorem delLoop_walkNone_pair {a b elem : String} (hsegs : segsOf elem = [a, b]) :
    ∀ (ps : List String) (fs fs' : Fields),
      delPropLoop elem ps fs = .ok fs' →
      (isNoneV (walkGet (.obj fs) [a, b]) = true ∨
        ∀ q, (fget fs q).isSome = true → q ∈ ps) →
      isNoneV (walkGet (.obj fs') [a, b]) = true := by
  intro ps
  induction ps with
  | nil =>
      intro fs fs' h hd
      have hfs : fs = fs' := by simpa [delPropLoop, pure, Except.pure] using h
      subst hfs
      rcases hd with hd | hd
      · exact hd
      · have hnil : fs = [] := fs_eq_nil_of_no_keys (fun q => by
          rcases hq : fget fs q with _ | v
          · rfl
          · exact absurd (hd q (by simp [hq])) (List.not_mem_nil q))
        subst hnil
        simp [walkGet_pair, jsGet, fget, isNoneV]
  | cons p ps ih =>
      intro fs fs' h hd
      rcases hstep : delPropStep elem fs p with e | fs1
      · rw [show delPropLoop elem (p :: ps) fs = (do
            let fs1 ← delPropStep elem fs p
            delPropLoop elem ps fs1) from rfl, hstep] at h
        simp [Bind.bind, Except.bind] at h
      · rw [show delPropLoop elem (p :: ps) fs = (do
            let fs1 ← delPropStep elem fs p
            delPropLoop elem ps fs1) from rfl, hstep] at h
        replace h : delPropLoop elem ps fs1 = .ok fs' := h
        apply ih fs1 fs' h
        by_cases hkey : fhasKey fs p = true
        · by_cases hep : elem = p
          · have h1 : fs1 = fdel fs p := by
              have := hstep.symm
              simp only [delPropStep, hkey, hep, Bool.not_true, if_true, if_pos rfl,
                Bool.false_eq_true, if_false, pure, Except.pure, Except.ok.injEq] at this
              simpa using this
            subst h1
            rcases hd with hd | hd
            · exact Or.inl (walkNone_pair_fdel p hd)
            · refine Or.inr (fun q hq => ?_)
              rw [fget_fdel] at hq
              by_cases hqp : q = p
              · rw [if_pos hqp] at hq; simp at hq
              · rw [if_neg hqp] at hq
                rcases List.mem_cons.mp (hd q hq) with h' | h'
                · exact absurd h' hqp
                · exact h'
          · have h1 : fs1 = twoSegDelete fs a b := by
              have := hstep.symm
              simp only [delPropStep, hkey, hep, hsegs, Bool.not_true, Bool.false_eq_true,
                if_false, pure, Except.pure, Except.ok.injEq] at this
              simpa using this
            subst h1
            exact Or.inl (twoSeg_walkNone fs a b)
        · have h1 : fs1 = fs := by
            have := hstep.symm
            simp only [delPropStep, hkey, Bool.not_false, if_true, pure, Except.pure,
              Except.ok.injEq] at this
            simpa using this
          rw [h1]
          rcases hd with hd | hd
          · exact Or.inl hd
          · refine Or.inr (fun q hq => ?_)
            rcases List.mem_cons.mp (hd q hq) with h' | h'
            · rw [h'] at hq
              exact absurd hq hkey
            · exact h'

theorem delLoop_walkNone_triple {a b c elem : String} (hsegs : segsOf elem = [a, b, c]) :
    ∀ (ps : List String) (fs fs' : Fields),
      delPropLoop elem ps fs = .ok fs' →
      (isNoneV (walkGet (.obj fs) [a, b, c]) = true ∨
        ∀ q, (fget fs q).isSome = true → q ∈ ps) →
      isNoneV (walkGet (.obj fs') [a, b, c]) = true := by
  intro ps
  induction ps with
  | nil =>
      intro fs fs' h hd
      have hfs : fs = fs' := by simpa [delPropLoop, pure, Except.pure] using h
      subst hfs
      rcases hd with hd | hd
      · exact hd
      · have hnil : fs = [] := fs_eq_nil_of_no_keys (fun q => by
          rcases hq : fget fs q with _ | v
          · rfl
          · exact absurd (hd q (by simp [hq])) (List.not_mem_nil q))
        subst hnil
        simp [walkGet_triple, jsGet, fget, isNoneV]
  | cons p ps ih =>
      intro fs fs' h hd
      rcases hstep : delPropStep elem fs p with e | fs1
      · rw [show delPropLoop elem (p :: ps) fs = (do
            let fs1 ← delPropStep elem fs p
            delPropLoop elem ps fs1) from rfl, hstep] at h
        simp [Bind.bind, Except.bind] at h
      · rw [show delPropLoop elem (p :: ps) fs = (do
            let fs1 ← delPropStep elem fs p
            delPropLoop elem ps fs1) from rfl, hstep] at h
        replace h : delPropLoop elem ps fs1 = .ok fs' := h
        apply ih fs1 fs' h
        by_cases hkey : fhasKey fs p = true
        · by_cases hep : elem = p
          · have h1 : fs1 = fdel fs p := by
              have := hstep.symm
              simp only [delPropStep, hkey, hep, Bool.not_true, if_true, if_pos rfl,
                Bool.false_eq_true, if_false, pure, Except.pure, Except.ok.injEq] at this
              simpa using this
            subst h1
            rcases hd with hd | hd
            · exact Or.inl (walkNone_triple_fdel p hd)
            · refine Or.inr (fun q hq => ?_)
              rw [fget_fdel] at hq
              by_cases hqp : q = p
              · rw [if_pos hqp] at hq; simp at hq
              · rw [if_neg hqp] at hq
                rcases List.mem_cons.mp (hd q hq) with h' | h'
                · exact absurd h' hqp
                · exact h'
          · have h1 : threeSegDelete fs a b c = .ok fs1 := by
              have := hstep
              simp only [delPropStep, hkey, hep, hsegs, Bool.not_true, Bool.false_eq_true,
                if_false] at this
              exact this
            exact Or.inl (threeSeg_walkNone h1)
        · have h1 : fs1 = fs := by
            have := hstep.symm
            simp only [delPropStep, hkey, Bool.not_false, if_true, pure, Except.pure,
              Except.ok.injEq] at this
            simpa using this
          rw [h1]
          rcases hd with hd | hd
          · exact Or.inl hd
          · refine Or.inr (fun q hq => ?_)
            rcases List.mem_cons.mp (hd q hq) with h' | h'
            · rw [h'] at hq
              exact absurd hq hkey
            · exact h'

/-- After a completed `_deleteKey` on a path of at most three segments,
walking the deleted path yields a none-value — the observable "no pending
entry at that exact path any more". -/
theorem deleteKeyOp_walkNone {buf buf' : Val} {k : String}
    (hlen : (segsOf k).length ≤ 3) (h : deleteKeyOp buf k = .ok buf') :
    isNoneV (recursivelyGet k buf') = true := by
  unfold recursivelyGet
  rcases hbuf : buf with _ | _ | bb | n | s | xs | fs | rk
  all_goals subst hbuf
  case undef => simp [deleteKeyOp, isNoneV, pure, Except.pure] at h; subst h; exact walkGet_nonobj (by intro gs hg; cases hg) (segsOf_ne_nil k)
  case null => simp [deleteKeyOp, isNoneV, pure, Except.pure] at h; subst h; exact walkGet_nonobj (by intro gs hg; cases hg) (segsOf_ne_nil k)
  case bool => simp [deleteKeyOp, isNoneV, deleteKeysFromObject1, pure, Except.pure] at h; subst h; exact walkGet_nonobj (by intro gs hg; cases hg) (segsOf_ne_nil k)
  case num => simp [deleteKeyOp, isNoneV, deleteKeysFromObject1, pure, Except.pure] at h; subst h; exact walkGet_nonobj (by intro gs hg; cases hg) (segsOf_ne_nil k)
  case str => simp [deleteKeyOp, isNoneV, deleteKeysFromObject1, pure, Except.pure] at h; subst h; exact walkGet_nonobj (by intro gs hg; cases hg) (segsOf_ne_nil k)
  case arr => simp [deleteKeyOp, isNoneV, deleteKeysFromObject1, pure, Except.pure] at h; subst h; exact walkGet_nonobj (by intro gs hg; cases hg) (segsOf_ne_nil k)
  case relay => simp [deleteKeyOp, isNoneV, deleteKeysFromObject1, pure, Except.pure] at h; subst h; exact walkGet_nonobj (by intro gs hg; cases hg) (segsOf_ne_nil k)
  case obj =>
    rw [deleteKeyOp_obj] at h
    match hsegs : segsOf k with
    | [] => exact absurd hsegs (segsOf_ne_nil k)
    | [x] =>
        rw [deleteKeysFromObject1_undotted fs hsegs] at h
        have hx : x = k := segsOf_singleton hsegs
        subst hx
        cases h
        simp [walkGet, jsGet, fget_fdel, isNoneV]
    | [a, b] =>
        have hloop : ∃ fs2, delPropLoop k (fkeys fs) fs = .ok fs2 ∧ buf' = .obj fs2 := by
          rcases hl : delPropLoop k (fkeys fs) fs with e | fs2
          · rw [show deleteKeysFromObject1 (.obj fs) k = (do
                let fs' ← delPropLoop k (fkeys fs) fs
                pure (Val.obj fs')) from rfl, hl] at h
            simp [Bind.bind, Except.bind] at h
          · rw [show deleteKeysFromObject1 (.obj fs) k = (do
                let fs' ← delPropLoop k (fkeys fs) fs
                pure (Val.obj fs')) from rfl, hl] at h
            exact ⟨fs2, rfl, by
              replace h : (pure (Val.obj fs2) : Except String Val) = .ok buf' := h
              simpa [pure, Except.pure] using h.symm⟩
        obtain ⟨fs2, hl, hb⟩ := hloop
        subst hb
        exact delLoop_walkNone_pair hsegs (fkeys fs) fs fs2 hl
          (Or.inr (fun q hq => mem_of_fget_isSome hq))
    | [a, b, c] =>
        have hloop : ∃ fs2, delPropLoop k (fkeys fs) fs = .ok fs2 ∧ buf' = .obj fs2 := by
          rcases hl : delPropLoop k (fkeys fs) fs with e | fs2
          · rw [show deleteKeysFromObject1 (.obj fs) k = (do
                let fs' ← delPropLoop k (fkeys fs) fs
                pure (Val.obj fs')) from rfl, hl] at h
            simp [Bind.bind, Except.bind] at h
          · rw [show deleteKeysFromObject1 (.obj fs) k = (do
                let fs' ← delPropLoop k (fkeys fs) fs
                pure (Val.obj fs')) from rfl, hl] at h
            exact ⟨fs2, rfl, by
              replace h : (pure (Val.obj fs2) : Except String Val) = .ok buf' := h
              simpa [pure, Except.pure] using h.symm⟩
        obtain ⟨fs2, hl, hb⟩ := hloop
        subst hb
        exact delLoop_walkNone_triple hsegs (fkeys fs) fs fs2 hl
          (Or.inr (fun q hq => mem_of_fget_isSome hq))
    | a :: b :: c :: d :: rest =>
        rw [hsegs] at hlen
        simp at hlen

/-! ### The delete loop never creates keys -/

theorem twoSeg_preserves_none {fs : Fields} {a b q : String} (h : fget fs q = none) :
    fget (twoSegDelete fs a b) q = none := by
  unfold twoSegDelete
  rcases hga : fget fs a with _ | nested
  · exact h
  · have hqa : ¬ q = a := fun he => by rw [he, hga] at h; cases h
    cases nested <;>
      first
      | (simp [isEmptyV, fget_fdel, fget_fset, hqa, h]
         done)
      | (dsimp only
         simp only [isEmptyV]
         split_ifs <;> simp [fget_fdel, fget_fset, hqa, h])

theorem threeSeg_preserves_none {fs fs' : Fields} {a b c q : String}
    (hok : threeSegDelete fs a b c = .ok fs') (h : fget fs q = none) :
    fget fs' q = none := by
  unfold threeSegDelete at hok
  rcases hga : fget fs a with _ | nested
  · rw [hga] at hok; cases hok; exact h
  · rw [hga] at hok
    dsimp only at hok
    have hqa : ¬ q = a := fun he => by rw [he, hga] at h; cases h
    by_cases hemp : isEmptyV nested = true
    · rw [if_pos hemp] at hok; cases hok; exact h
    · rw [if_neg hemp] at hok
      by_cases hno : isNoneV (jsGet nested b) = true
      · rw [if_pos hno] at hok
        simp [throw, throwThe, MonadExceptOf.throw] at hok
      · rw [if_neg hno] at hok
        cases nested with
        | obj nfs =>
            dsimp only at hok
            rcases hgb : fget nfs b with _ | w
            · rw [hgb] at hok
              cases hok; exact h
            · rw [hgb] at hok
              cases w <;> cases hok <;> simp [fget_fset, hqa, h]
        | undef => cases hok; exact h
        | null => cases hok; exact h
        | bool bb => cases hok; exact h
        | num n => cases hok; exact h
        | str s => cases hok; exact h
        | arr xs => cases hok; exact h
        | relay rk => cases hok; exact h

theorem delPropStep_preserves_none {elem : String} {fs fs1 : Fields} {p q : String}
    (hok : delPropStep elem fs p = .ok fs1) (h : fget fs q = none) :
    fget fs1 q = none := by
  unfold delPropStep at hok
  by_cases hkey : fhasKey fs p = true
  · by_cases hep : elem = p
    · rw [if_neg (by simp [hkey]), if_pos hep] at hok
      cases hok
      rw [fget_fdel]
      split_ifs <;> simp [h]
    · rw [if_neg (by simp [hkey]), if_neg hep] at hok
      match hsegs : segsOf elem with
      | [x] => rw [hsegs] at hok; cases hok; exact h
      | [a, b] => rw [hsegs] at hok; cases hok; exact twoSeg_preserves_none h
      | [a, b, c] => rw [hsegs] at hok; exact threeSeg_preserves_none hok h
      | [] => exact absurd hsegs (segsOf_ne_nil elem)
      | a :: b :: c :: d :: rest =>
          rw [hsegs] at hok
          simp [throw, throwThe, MonadExceptOf.throw] at hok
  · rw [if_pos (by simp [hkey])] at hok
    cases hok; exact h

theorem delPropLoop_preserves_none {elem : String} :
    ∀ {ps : List String} {fs fs' : Fields},
      delPropLoop elem ps fs = .ok fs' → ∀ q, fget fs q = none → fget fs' q = none := by
  intro ps
  induction ps with
  | nil =>
      intro fs fs' h q hq
      have : fs = fs' := by simpa [delPropLoop, pure, Except.pure] using h
      subst this; exact hq
  | cons p ps ih =>
      intro fs fs' h q hq
      rcases hstep : delPropStep elem fs p with e | fs1
      · rw [show delPropLoop elem (p :: ps) fs = (do
            let fs1 ← delPropStep elem fs p
            delPropLoop elem ps fs1) from rfl, hstep] at h
        simp [Bind.bind, Except.bind] at h
      · rw [show delPropLoop elem (p :: ps) fs = (do
            let fs1 ← delPropStep elem fs p
            delPropLoop elem ps fs1) from rfl, hstep] at h
        replace h : delPropLoop elem ps fs1 = .ok fs' := h
        exact ih h q (delPropStep_preserves_none hstep hq)

/-- `_deleteKey` never introduces a top-level key. -/
theorem deleteKeyOp_preserves_none {buf buf' : Val} {k q : String}
    (h : deleteKeyOp buf k = .ok buf') (hq : fget (objFields buf) q = none) :
    fget (objFields buf') q = none := by
  rcases hbuf : buf with _ | _ | bb | n | s | xs | fs | rk
  all_goals subst hbuf
  case undef => simp [deleteKeyOp, isNoneV, pure, Except.pure] at h; subst h; exact hq
  case null => simp [deleteKeyOp, isNoneV, pure, Except.pure] at h; subst h; exact hq
  case bool => simp [deleteKeyOp, isNoneV, deleteKeysFromObject1, pure, Except.pure] at h; subst h; exact hq
  case num => simp [deleteKeyOp, isNoneV, deleteKeysFromObject1, pure, Except.pure] at h; subst h; exact hq
  case str => simp [deleteKeyOp, isNoneV, deleteKeysFromObject1, pure, Except.pure] at h; subst h; exact hq
  case arr => simp [deleteKeyOp, isNoneV, deleteKeysFromObject1, pure, Except.pure] at h; subst h; exact hq
  case relay => simp [deleteKeyOp, isNoneV, deleteKeysFromObject1, pure, Except.pure] at h; subst h; exact hq
  case obj =>
    rw [deleteKeyOp_obj] at h
    rcases hl : delPropLoop k (fkeys fs) fs with e | fs2
    · rw [show deleteKeysFromObject1 (.obj fs) k = (do
          let fs' ← delPropLoop k (fkeys fs) fs
          pure (Val.obj fs')) from rfl, hl] at h
      simp [Bind.bind, Except.bind] at h
    · rw [show deleteKeysFromObject1 (.obj fs) k = (do
          let fs' ← delPropLoop k (fkeys fs) fs
          pure (Val.obj fs')) from rfl, hl] at h
      replace h : (pure (Val.obj fs2) : Except String Val) = .ok buf' := h
      have hb : buf' = .obj fs2 := by simpa [pure, Except.pure] using h.symm
      subst hb
      exact delPropLoop_preserves_none hl q hq

/-- On buffers without framework metadata, the `__ember_meta__` scrub is the
identity. -/
theorem scrub_eq_self {errors : Val} (key : String)
    (h : fget (objFields errors) "__ember_meta__" = none) :
    emberMetaScrub errors key = errors := by
  cases errors <;> simp [emberMetaScrub, objFields] at h ⊢ <;> simp [h]

/-! ### Characterisation of a synchronous `write` -/

theorem writeSyncSpec {cs : Changeset} {key : String} {value raw : Val}
    {cs' : Changeset} {evs : List VEvent}
    (hskip : cs.skipValidate = false)
    {chf erf : Fields} (hch : cs.changes = .obj chf) (her : cs.errors = .obj erf)
    (hmeta : fget erf "__ember_meta__" = none)
    (hlen : (segsOf key).length ≤ 3)
    (hok : validateAndSet cs key value (.sync raw) = .ok (cs', evs)) :
    (acceptedValidation (coerceValidation raw) = true →
        isNoneV (recursivelyGet key cs'.errors) = true ∧
        (¬ recursivelyGet key cs.content = value →
            recursivelyGet key cs'.changes = value) ∧
        (recursivelyGet key cs.content = value → hasOwnKey cs.changes key = true →
            isNoneV (recursivelyGet key cs'.changes) = true) ∧
        (recursivelyGet key cs.content = value → hasOwnKey cs.changes key = false →
            cs'.changes = cs.changes)) ∧
    (acceptedValidation (coerceValidation raw) = false →
        recursivelyGet key cs'.errors = errRecord value (coerceValidation raw) ∧
        isNoneV (recursivelyGet key cs'.changes) = true) := by
  unfold validateAndSet at hok
  rw [hskip] at hok
  simp only [Bool.false_eq_true, if_false] at hok
  rcases hsp : setPropertyStep cs (coerceValidation raw) key value
      (recursivelyGet key cs.content) with e | cs2
  · rw [hsp] at hok
    simp [Bind.bind, Except.bind] at hok
  · rw [hsp] at hok
    have hcs2 : cs2 = cs' := by
      replace hok : (pure (cs2, [VEvent.beforeValidation key, VEvent.afterValidation key]) :
          Except String (Changeset × List VEvent)) = .ok (cs', evs) := hok
      exact (by simpa [pure, Except.pure, Prod.mk.injEq] using hok : _ ∧ _).1
    subst hcs2
    constructor
    · intro hacc
      rw [setPropertyStep, if_pos hacc] at hsp
      rcases hde : deleteKeyOp cs.errors key with e | errors1
      · rw [hde] at hsp
        simp [Bind.bind, Except.bind] at hsp
      · rw [hde] at hsp
        simp only [Bind.bind, Except.bind] at hsp
        have hmeta1 : fget (objFields errors1) "__ember_meta__" = none :=
          deleteKeyOp_preserves_none hde (by rw [her]; exact hmeta)
        have herrW : isNoneV (recursivelyGet key errors1) = true :=
          deleteKeyOp_walkNone hlen hde
        by_cases heq : recursivelyGet key cs.content = value
        · rw [if_neg (show ¬ ((!decide (recursivelyGet key cs.content = value)) = true) by
            simp [heq])] at hsp
          by_cases hown : hasOwnKey cs.changes key = true
          · rw [if_pos hown] at hsp
            rcases hdc : deleteKeyOp cs.changes key with e | changes1
            · rw [hdc] at hsp
              simp [Bind.bind, Except.bind] at hsp
            · rw [hdc] at hsp
              simp only [Bind.bind, Except.bind, pure, Except.pure, Except.ok.injEq] at hsp
              have hchg : cs2.changes = changes1 :=
                (congrArg Changeset.changes hsp).symm
              have herr : cs2.errors = emberMetaScrub errors1 key :=
                (congrArg Changeset.errors hsp).symm
              refine ⟨?_, fun hne => absurd heq hne, fun _ _ => ?_, fun _ hn => ?_⟩
              · rw [herr, scrub_eq_self key hmeta1]
                exact herrW
              · rw [hchg]
                exact deleteKeyOp_walkNone hlen hdc
              · rw [hown] at hn; cases hn
          · rw [if_neg hown] at hsp
            simp only [Bind.bind, Except.bind, pure, Except.pure, Except.ok.injEq] at hsp
            have hchg : cs2.changes = cs.changes :=
              (congrArg Changeset.changes hsp).symm
            have herr : cs2.errors = emberMetaScrub errors1 key :=
              (congrArg Changeset.errors hsp).symm
            refine ⟨?_, fun hne => absurd heq hne, fun _ ho => ?_, fun _ _ => hchg⟩
            · rw [herr, scrub_eq_self key hmeta1]
              exact herrW
            · rw [ho] at hown; exact absurd rfl hown
        · rw [if_pos (show (!decide (recursivelyGet key cs.content = value)) = true by
            simp [heq])] at hsp
          simp only [Bind.bind, Except.bind, pure, Except.pure, Except.ok.injEq] at hsp
          have hchg : cs2.changes = deepSetV cs.changes key value :=
            (congrArg Changeset.changes hsp).symm
          have herr : cs2.errors = emberMetaScrub errors1 key :=
            (congrArg Changeset.errors hsp).symm
          refine ⟨?_, fun _ => ?_, fun he => absurd he heq, fun he => absurd he heq⟩
          · rw [herr, scrub_eq_self key hmeta1]
            exact herrW
          · rw [hchg]
            show recursivelyGet key (deepSetV cs.changes key value) = value
            rw [hch]
            exact deepSet_walkGet (segsOf key) chf value (segsOf_ne_nil key)
    · intro hacc
      rw [setPropertyStep, if_neg (by simp [hacc])] at hsp
      unfold addError at hsp
      dsimp only [isObjectV, errRecord] at hsp
      rcases hdc : deleteKeyOp cs.changes key with e | changes1
      · rw [hdc] at hsp
        simp [Bind.bind, Except.bind] at hsp
      · rw [hdc] at hsp
        simp only [Bind.bind, Except.bind, pure, Except.pure, Except.ok.injEq] at hsp
        have hchg : cs2.changes = changes1 :=
          (congrArg Changeset.changes hsp).symm
        have herr : cs2.errors =
            deepSetV cs.errors key (errRecord value (coerceValidation raw)) :=
          (congrArg Changeset.errors hsp).symm
        refine ⟨?_, ?_⟩
        · rw [herr]
          show recursivelyGet key (deepSetV cs.errors key _) = _
          rw [her]
          exact deepSet_walkGet (segsOf key) erf _ (segsOf_ne_nil key)
        · rw [hchg]
          exact deleteKeyOp_walkNone hlen hdc

/-! ### Effect of the buffer operations at undotted keys -/

theorem deepSetV_undotted {k : String} (hu : segsOf k = [k]) (fs : Fields) (v : Val) :
    deepSetV (.obj fs) k v = .obj (fset fs k v) := by
  unfold deepSetV
  rw [hu]
  rfl

/-- The metadata scrub keeps the key set of the errors buffer. -/
theorem scrub_obj (fs : Fields) (key : String) :
    ∃ gs, emberMetaScrub (.obj fs) key = .obj gs ∧
      ∀ q, (fget gs q).isSome = (fget fs q).isSome := by
  rcases hm : fget fs "__ember_meta__" with _ | m
  · exact ⟨fs, by simp [emberMetaScrub, hm], fun q => rfl⟩
  · cases m
    case obj mfs =>
      rcases hv : fget mfs "values" with _ | v
      · exact ⟨fs, by simp [emberMetaScrub, hm, hv], fun q => rfl⟩
      · cases v
        case obj vfs =>
          refine ⟨fset fs "__ember_meta__"
              (.obj (fset mfs "values" (.obj (fdel vfs key)))),
            by simp [emberMetaScrub, hm, hv], fun q => ?_⟩
          rw [fget_fset]
          split_ifs with hq
          · rw [hq, hm]; rfl
          · rfl
        all_goals exact ⟨fs, by simp [emberMetaScrub, hm, hv], fun q => rfl⟩
    all_goals exact ⟨fs, by simp [emberMetaScrub, hm], fun q => rfl⟩

/-- Postcondition of `_setProperty` at an undotted key: the content is
untouched, the buffers stay mappings, no key other than the written one is
ever added to a buffer, and the written key never ends up present in both
buffers. -/
theorem setPropertyStep_undotted {cs cs' : Changeset} {validation value oldValue : Val}
    {k : String} (hu : segsOf k = [k])
    {chf erf : Fields} (hch : cs.changes = .obj chf) (her : cs.errors = .obj erf)
    (hok : setPropertyStep cs validation k value oldValue = .ok cs') :
    cs'.content = cs.content ∧ cs'.contentId = cs.contentId ∧
    ∃ chf' erf', cs'.changes = .obj chf' ∧ cs'.errors = .obj erf' ∧
      (∀ q, ¬ q = k →
        ((fget chf' q).isSome = true → (fget chf q).isSome = true) ∧
        ((fget erf' q).isSome = true → (fget erf q).isSome = true)) ∧
      ((fget chf' k).isSome = false ∨ (fget erf' k).isSome = false) := by
  obtain ⟨gs, hgs, hgsk⟩ := scrub_obj (fdel erf k) k
  by_cases hacc : acceptedValidation validation = true
  · rw [setPropertyStep, if_pos hacc, her, deleteKeyOp_obj,
      deleteKeysFromObject1_undotted erf hu] at hok
    simp only [Bind.bind, Except.bind] at hok
    by_cases heqv : (!decide (oldValue = value)) = true
    · rw [if_pos heqv] at hok
      simp only [Bind.bind, Except.bind, pure, Except.pure, Except.ok.injEq] at hok
      refine ⟨(congrArg Changeset.content hok).symm, (congrArg Changeset.contentId hok).symm,
        fset chf k value, gs, ?_, ?_, ?_, Or.inr ?_⟩
      · rw [← (congrArg Changeset.changes hok), hch, deepSetV_undotted hu]
      · rw [← (congrArg Changeset.errors hok)]
        exact hgs
      · intro q hq
        constructor
        · rw [fget_fset, if_neg hq]; exact id
        · rw [hgsk q, fget_fdel, if_neg hq]; exact id
      · rw [hgsk k, fget_fdel, if_pos rfl]; rfl
    · rw [if_neg heqv] at hok
      by_cases hown : hasOwnKey cs.changes k = true
      · rw [if_pos hown, hch, deleteKeyOp_obj, deleteKeysFromObject1_undotted chf hu] at hok
        simp only [Bind.bind, Except.bind, pure, Except.pure, Except.ok.injEq] at hok
        refine ⟨(congrArg Changeset.content hok).symm, (congrArg Changeset.contentId hok).symm,
          fdel chf k, gs, ?_, ?_, ?_, Or.inl ?_⟩
        · rw [← (congrArg Changeset.changes hok)]
        · rw [← (congrArg Changeset.errors hok)]
          exact hgs
        · intro q hq
          constructor
          · rw [fget_fdel, if_neg hq]; exact id
          · rw [hgsk q, fget_fdel, if_neg hq]; exact id
        · rw [fget_fdel, if_pos rfl]; rfl
      · rw [if_neg hown] at hok
        simp only [Bind.bind, Except.bind, pure, Except.pure, Except.ok.injEq] at hok
        refine ⟨(congrArg Changeset.content hok).symm, (congrArg Changeset.contentId hok).symm,
          chf, gs, ?_, ?_, ?_, Or.inl ?_⟩
        · rw [← (congrArg Changeset.changes hok), hch]
        · rw [← (congrArg Changeset.errors hok)]
          exact hgs
        · intro q _
          exact ⟨id, by rw [hgsk q]; rw [fget_fdel]; split_ifs <;> simp +contextual⟩
        · rw [hch] at hown
          simpa [hasOwnKey, fhasKey] using hown
  · rw [setPropertyStep, if_neg (by simp [hacc])] at hok
    unfold addError at hok
    dsimp only [isObjectV, errRecord] at hok
    rw [hch, deleteKeyOp_obj, deleteKeysFromObject1_undotted chf hu] at hok
    simp only [Bind.bind, Except.bind, pure, Except.pure, Except.ok.injEq] at hok
    refine ⟨(congrArg Changeset.content hok).symm, (congrArg Changeset.contentId hok).symm,
      fdel chf k, fset erf k (.obj [("value", value), ("validation", validation)]), ?_, ?_, ?_,
      Or.inl ?_⟩
    · rw [← (congrArg Changeset.changes hok)]
    · rw [← (congrArg Changeset.errors hok), her, deepSetV_undotted hu]
      rfl
    · intro q hq
      constructor
      · rw [fget_fdel, if_neg hq]; exact id
      · rw [fget_fset, if_neg hq]; exact id
    · rw [fget_fdel, if_pos rfl]; rfl

theorem addError_undotted {cs cs' : Changeset} {options : Val} {k : String}
    (hu : segsOf k = [k])
    {chf erf : Fields} (hch : cs.changes = .obj chf) (her : cs.errors = .obj erf)
    (hok : addError cs k options = .ok cs') :
    cs'.content = cs.content ∧ cs'.contentId = cs.contentId ∧
    ∃ chf' erf', cs'.changes = .obj chf' ∧ cs'.errors = .obj erf' ∧
      (∀ q, ¬ q = k →
        ((fget chf' q).isSome = true → (fget chf q).isSome = true) ∧
        ((fget erf' q).isSome = true → (fget erf q).isSome = true)) ∧
      ((fget chf' k).isSome = false ∨ (fget erf' k).isSome = false) := by
  unfold addError at hok
  rw [hch, deleteKeyOp_obj, deleteKeysFromObject1_undotted chf hu] at hok
  simp only [Bind.bind, Except.bind, pure, Except.pure, Except.ok.injEq] at hok
  refine ⟨(congrArg Changeset.content hok).symm, (congrArg Changeset.contentId hok).symm,
    fdel chf k,
    fset erf k (if isObjectV options = true then options
      else errRecord (changesetGet cs k) options), ?_, ?_, ?_, Or.inl ?_⟩
  · rw [← (congrArg Changeset.changes hok)]
  · rw [← (congrArg Changeset.errors hok), her, deepSetV_undotted hu]
  · intro q hq
    constructor
    · rw [fget_fdel, if_neg hq]; exact id
    · rw [fget_fset, if_neg hq]; exact id
  · rw [fget_fdel, if_pos rfl]; rfl

theorem pushErrors_tail {cs cs' : Changeset} {k : String} (hu : segsOf k = [k])
    {chf erf : Fields} (hch : cs.changes = .obj chf) (her : cs.errors = .obj erf)
    {value : Val} {vlist : List Val}
    (hok : (do
        let changes' ← deleteKeyOp cs.changes k
        let errors' ← emberSetPath cs.errors (segsOf k) (errRecord value (.arr vlist))
        pure { cs with changes := changes', errors := errors' } :
        Except String Changeset) = .ok cs') :
    cs'.content = cs.content ∧ cs'.contentId = cs.contentId ∧
    ∃ chf' erf', cs'.changes = .obj chf' ∧ cs'.errors = .obj erf' ∧
      (∀ q, ¬ q = k →
        ((fget chf' q).isSome = true → (fget chf q).isSome = true) ∧
        ((fget erf' q).isSome = true → (fget erf q).isSome = true)) ∧
      ((fget chf' k).isSome = false ∨ (fget erf' k).isSome = false) := by
  rw [hch, deleteKeyOp_obj, deleteKeysFromObject1_undotted chf hu] at hok
  simp only [Bind.bind, Except.bind] at hok
  rw [her, show emberSetPath (Val.obj erf) (segsOf k) (errRecord value (.arr vlist)) =
      .ok (.obj (fset erf k (errRecord value (.arr vlist)))) by rw [hu]; rfl] at hok
  simp only [Bind.bind, Except.bind, pure, Except.pure, Except.ok.injEq] at hok
  refine ⟨(congrArg Changeset.content hok).symm, (congrArg Changeset.contentId hok).symm,
    fdel chf k, fset erf k (errRecord value (.arr vlist)), ?_, ?_, ?_, Or.inl ?_⟩
  · rw [← (congrArg Changeset.changes hok)]
  · rw [← (congrArg Changeset.errors hok)]
  · intro q hq
    constructor
    · rw [fget_fdel, if_neg hq]; exact id
    · rw [fget_fset, if_neg hq]; exact id
  · rw [fget_fdel, if_pos rfl]; rfl

theorem pushErrors_undotted {cs cs' : Changeset} {msgs : List Val} {k : String}
    (hu : segsOf k = [k])
    {chf erf : Fields} (hch : cs.changes = .obj chf) (her : cs.errors = .obj erf)
    (hok : pushErrors cs k msgs = .ok cs') :
    cs'.content = cs.content ∧ cs'.contentId = cs.contentId ∧
    ∃ chf' erf', cs'.changes = .obj chf' ∧ cs'.errors = .obj erf' ∧
      (∀ q, ¬ q = k →
        ((fget chf' q).isSome = true → (fget chf q).isSome = true) ∧
        ((fget erf' q).isSome = true → (fget erf q).isSome = true)) ∧
      ((fget chf' k).isSome = false ∨ (fget erf' k).isSome = false) := by
  unfold pushErrors at hok
  simp only [] at hok
  repeat' split at hok
  all_goals
    first
    | exact pushErrors_tail hu hch her hok
    | simp [Bind.bind, Except.bind, throw, throwThe, MonadExceptOf.throw] at hok

theorem setIsValidating_fields (cs : Changeset) (k : String) (b : Bool) :
    (setIsValidating cs k b).changes = cs.changes ∧
    (setIsValidating cs k b).errors = cs.errors ∧
    (setIsValidating cs k b).content = cs.content ∧
    (setIsValidating cs k b).contentId = cs.contentId := by
  unfold setIsValidating
  dsimp only
  split_ifs <;> exact ⟨rfl, rfl, rfl, rfl⟩

theorem applyOp_undotted {cs cs' : Changeset} {op : COp}
    (hu : segsOf op.key = [op.key])
    {chf erf : Fields} (hch : cs.changes = .obj chf) (her : cs.errors = .obj erf)
    (hok : applyOp cs op = .ok cs') :
    cs'.content = cs.content ∧ cs'.contentId = cs.contentId ∧
    ∃ chf' erf', cs'.changes = .obj chf' ∧ cs'.errors = .obj erf' ∧
      (∀ q, ¬ q = op.key →
        ((fget chf' q).isSome = true → (fget chf q).isSome = true) ∧
        ((fget erf' q).isSome = true → (fget erf q).isSome = true)) ∧
      ((fget chf' op.key).isSome = false ∨ (fget erf' op.key).isSome = false) := by
  cases op with
  | addErr k o => exact addError_undotted hu hch her hok
  | pushErr k ms => exact pushErrors_undotted hu hch her hok
  | write k v out =>
      unfold applyOp at hok
      dsimp only at hok
      dsimp only [COp.key] at hu ⊢
      rcases hva : validateAndSet cs k v out with e | pr
      · rw [hva] at hok; simp [Except.map] at hok
      · rw [hva] at hok
        obtain ⟨cs2, evs⟩ := pr
        have hcs : cs2 = cs' := by simpa [Except.map] using hok
        subst hcs
        replace hu : segsOf k = [k] := hu
        unfold validateAndSet at hva
        by_cases hskip : cs.skipValidate = true
        · simp only [hskip, if_true] at hva
          rcases hsp : setPropertyStep cs (.bool true) k v .undef with e | c
          · rw [hsp] at hva; simp [Bind.bind, Except.bind] at hva
          · rw [hsp] at hva
            have h2 : c = cs2 := by
              replace hva : (pure (c, ([] : List VEvent)) :
                  Except String (Changeset × List VEvent)) = .ok (cs2, evs) := hva
              exact (by simpa [pure, Except.pure, Prod.mk.injEq] using hva : _ ∧ _).1
            rw [← h2]
            exact setPropertyStep_undotted hu hch her hsp
        · have hf : cs.skipValidate = false := by
            cases h : cs.skipValidate
            · rfl
            · exact absurd h hskip
          simp only [hf, Bool.false_eq_true, if_false] at hva
          cases out with
          | sync raw =>
              dsimp only at hva
              rcases hsp : setPropertyStep cs (coerceValidation raw) k v
                  (recursivelyGet k cs.content) with e | c
              · rw [hsp] at hva; simp [Bind.bind, Except.bind] at hva
              · rw [hsp] at hva
                have h2 : c = cs2 := by
                  replace hva : (pure (c, [VEvent.beforeValidation k, VEvent.afterValidation k]) :
                      Except String (Changeset × List VEvent)) = .ok (cs2, evs) := hva
                  exact (by simpa [pure, Except.pure, Prod.mk.injEq] using hva : _ ∧ _).1
                rw [← h2]
                exact setPropertyStep_undotted hu hch her hsp
          | async resolved =>
              dsimp only at hva
              have hfa := setIsValidating_fields cs k true
              have hfb := setIsValidating_fields (setIsValidating cs k true) k false
              rcases hsp : setPropertyStep (setIsValidating (setIsValidating cs k true) k false)
                  resolved k v (recursivelyGet k cs.content) with e | c
              · rw [hsp] at hva; simp [Bind.bind, Except.bind] at hva
              · rw [hsp] at hva
                have h2 : c = cs2 := by
                  replace hva : (pure (c, [VEvent.beforeValidation k, VEvent.afterValidation k]) :
                      Except String (Changeset × List VEvent)) = .ok (cs2, evs) := hva
                  exact (by simpa [pure, Except.pure, Prod.mk.injEq] using hva : _ ∧ _).1
                rw [← h2]
                have hch2 : (setIsValidating (setIsValidating cs k true) k false).changes =
                    .obj chf := by rw [hfb.1, hfa.1, hch]
                have her2 : (setIsValidating (setIsValidating cs k true) k false).errors =
                    .obj erf := by rw [hfb.2.1, hfa.2.1, her]
                obtain ⟨hc1, hc2, rest⟩ := setPropertyStep_undotted hu hch2 her2 hsp
                refine ⟨?_, ?_, rest⟩
                · rw [hc1, hfb.2.2.1, hfa.2.2.1]
                · rw [hc2, hfb.2.2.2, hfa.2.2.2]

/-- No key is an own property of both buffers simultaneously (with both
buffers in mapping shape). -/
def BuffersDisjoint (cs : Changeset) : Prop :=
  ∃ chf erf, cs.changes = .obj chf ∧ cs.errors = .obj erf ∧
    ∀ q, (fget chf q).isSome = false ∨ (fget erf q).isSome = false

theorem runOps_disjoint {ops : List COp} :
    ∀ {cs cs' : Changeset}, (∀ op ∈ ops, segsOf op.key = [op.key]) →
      BuffersDisjoint cs → runOps cs ops = .ok cs' → BuffersDisjoint cs' := by
  induction ops with
  | nil =>
      intro cs cs' _ hd h
      have hcc : cs = cs' := by simpa [runOps, pure, Except.pure] using h
      rw [← hcc]
      exact hd
  | cons op ops ih =>
      intro cs cs' hkeys hd h
      rcases hstep : applyOp cs op with e | cs1
      · rw [show runOps cs (op :: ops) = (do
            let cs1 ← applyOp cs op
            runOps cs1 ops) from rfl, hstep] at h
        simp [Bind.bind, Except.bind] at h
      · rw [show runOps cs (op :: ops) = (do
            let cs1 ← applyOp cs op
            runOps cs1 ops) from rfl, hstep] at h
        replace h : runOps cs1 ops = .ok cs' := h
        obtain ⟨chf, erf, hch, her, hdis⟩ := hd
        obtain ⟨_, _, chf', erf', hch', her', hpres, hkey⟩ :=
          applyOp_undotted (hkeys op (List.mem_cons_self op ops)) hch her hstep
        apply ih (fun o ho => hkeys o (List.mem_cons_of_mem op ho)) ?_ h
        refine ⟨chf', erf', hch', her', fun q => ?_⟩
        by_cases hq : q = op.key
        · rw [hq]
          rcases hkey with hk | hk
          · exact Or.inl hk
          · exact Or.inr hk
        · rcases hdis q with hd1 | hd1
          · left
            cases hc : (fget chf' q).isSome
            · rfl
            · exact absurd ((hpres q hq).1 hc) (by simp [hd1])
          · right
            cases hc : (fget erf' q).isSome
            · rfl
            · exact absurd ((hpres q hq).2 hc) (by simp [hd1])

/-! ### The read-priority chain as the specification words it -/

/-- The read rule exactly as the specification states it: (a) the `value`
field of an error record at the key, (b) a cached relay, (c) the pending
change if one exists — including a falsy-but-present one, (d) a fresh relay
for mapping-valued raw content, (e) the raw content value. -/
def readSpec (cs : Changeset) (key : String) : Val :=
  let err := recursivelyGet key cs.errors
  let changeWalk := recursivelyGet key cs.changes
  let raw := recursivelyGet key cs.content
  if !isNoneV err then jsGet err "value"
  else if cs.relayCache.contains key then .relay key
  else if !isNoneV changeWalk || hasOwnKey cs.changes key then
    (if !isNoneV changeWalk then changeWalk else jsGet cs.changes key)
  else if isObjectV raw then .relay key
  else raw

theorem valueFor_eq_readSpec (cs : Changeset) (key : String) :
    valueFor cs key = readSpec cs key := by
  unfold valueFor readSpec
  dsimp only
  split_ifs <;> simp_all

/-! ### Exact forms of the dotted delete branches -/

theorem twoSegDelete_obj {fs : Fields} {a : String} {nfs : Fields}
    (hga : fget fs a = some (.obj nfs)) (b : String) :
    twoSegDelete fs a b =
      if (fdel nfs b).isEmpty then fdel fs a else fset fs a (.obj (fdel nfs b)) := by
  unfold twoSegDelete
  rw [hga]
  simp only [isEmptyV, Bool.false_eq_true, if_false]

theorem twoSeg_idem {fs : Fields} {a : String} {nfs : Fields}
    (hga : fget fs a = some (.obj nfs)) (b : String) :
    twoSegDelete (twoSegDelete fs a b) a b = twoSegDelete fs a b := by
  rw [twoSegDelete_obj hga]
  by_cases hemp : (fdel nfs b).isEmpty
  · rw [if_pos hemp]
    unfold twoSegDelete
    rw [fget_fdel, if_pos rfl]
  · rw [if_neg hemp]
    rw [twoSegDelete_obj (by rw [fget_fset, if_pos rfl])]
    have hbb : fdel (fdel nfs b) b = fdel nfs b :=
      fdel_eq_self (by rw [fget_fdel, if_pos rfl])
    rw [hbb, if_neg hemp]
    exact fset_eq_self (by rw [fget_fset, if_pos rfl])

theorem threeSegDelete_obj {fs : Fields} {a b : String} {nfs dfs : Fields}
    (hga : fget fs a = some (.obj nfs)) (hgb : fget nfs b = some (.obj dfs)) (c : String) :
    threeSegDelete fs a b c =
      .ok (fset fs a (.obj (fset nfs b (.obj (fdel dfs c))))) := by
  unfold threeSegDelete
  rw [hga]
  simp only [isEmptyV, Bool.false_eq_true, if_false, jsGet, hgb, Option.getD, isNoneV]
  rfl

theorem threeSeg_idem {fs : Fields} {a b c : String} {nfs dfs : Fields}
    (hga : fget fs a = some (.obj nfs)) (hgb : fget nfs b = some (.obj dfs)) :
    threeSegDelete (fset fs a (.obj (fset nfs b (.obj (fdel dfs c))))) a b c =
      .ok (fset fs a (.obj (fset nfs b (.obj (fdel dfs c))))) := by
  rw [threeSegDelete_obj (by rw [fget_fset, if_pos rfl]) (by rw [fget_fset, if_pos rfl])]
  have hcc : fdel (fdel dfs c) c = fdel dfs c :=
    fdel_eq_self (by rw [fget_fdel, if_pos rfl])
  rw [hcc]
  rw [show fset (fset nfs b (Val.obj (fdel dfs c))) b (Val.obj (fdel dfs c)) =
      fset nfs b (Val.obj (fdel dfs c)) from fset_eq_self (by rw [fget_fset, if_pos rfl])]
  rw [show fset (fset fs a (Val.obj (fset nfs b (Val.obj (fdel dfs c))))) a
      (Val.obj (fset nfs b (Val.obj (fdel dfs c)))) =
      fset fs a (Val.obj (fset nfs b (Val.obj (fdel dfs c)))) from
      fset_eq_self (by rw [fget_fset, if_pos rfl])]

theorem delLoop_pair_fixed {a b elem : String} (hsegs : segsOf elem = [a, b]) :
    ∀ (ps : List String) (fs : Fields), (∀ p ∈ ps, ¬ p = elem) →
      twoSegDelete fs a b = fs →
      delPropLoop elem ps fs = .ok fs := by
  intro ps
  induction ps with
  | nil => intro fs _ _; rfl
  | cons p ps ih =>
      intro fs hall hfix
      show (do
        let fs1 ← delPropStep elem fs p
        delPropLoop elem ps fs1) = _
      by_cases hkey : fhasKey fs p = true
      · have hep : ¬ elem = p := fun h => (hall p (List.mem_cons_self p ps)) h.symm
        have hstep : delPropStep elem fs p = .ok fs := by
          simp [delPropStep, hkey, hep, hsegs, hfix, pure, Except.pure]
        rw [hstep]
        exact ih fs (fun q hq => hall q (List.mem_cons_of_mem p hq)) hfix
      · have hstep : delPropStep elem fs p = .ok fs := by
          simp [delPropStep, hkey, pure, Except.pure]
        rw [hstep]
        exact ih fs (fun q hq => hall q (List.mem_cons_of_mem p hq)) hfix

theorem delLoop_pair_run {a b elem : String} (hsegs : segsOf elem = [a, b]) :
    ∀ (ps : List String) (fs : Fields), (∀ p ∈ ps, ¬ p = elem) →
      twoSegDelete (twoSegDelete fs a b) a b = twoSegDelete fs a b →
      (∃ p ∈ ps, fhasKey fs p = true) →
      delPropLoop elem ps fs = .ok (twoSegDelete fs a b) := by
  intro ps
  induction ps with
  | nil => intro fs _ _ hex; simp at hex
  | cons p ps ih =>
      intro fs hall hfix hex
      show (do
        let fs1 ← delPropStep elem fs p
        delPropLoop elem ps fs1) = _
      by_cases hkey : fhasKey fs p = true
      · have hep : ¬ elem = p := fun h => (hall p (List.mem_cons_self p ps)) h.symm
        have hstep : delPropStep elem fs p = .ok (twoSegDelete fs a b) := by
          simp [delPropStep, hkey, hep, hsegs, pure, Except.pure]
        rw [hstep]
        exact delLoop_pair_fixed hsegs ps (twoSegDelete fs a b)
          (fun q hq => hall q (List.mem_cons_of_mem p hq)) hfix
      · have hstep : delPropStep elem fs p = .ok fs := by
          simp [delPropStep, hkey, pure, Except.pure]
        rw [hstep]
        obtain ⟨w, hw, hwk⟩ := hex
        rcases List.mem_cons.mp hw with h' | h'
        · rw [h'] at hwk; exact absurd hwk hkey
        · exact ih fs (fun q hq => hall q (List.mem_cons_of_mem p hq)) hfix ⟨w, h', hwk⟩

theorem delLoop_triple_fixed {a b c elem : String} (hsegs : segsOf elem = [a, b, c]) :
    ∀ (ps : List String) (fs : Fields), (∀ p ∈ ps, ¬ p = elem) →
      threeSegDelete fs a b c = .ok fs →
      delPropLoop elem ps fs = .ok fs := by
  intro ps
  induction ps with
  | nil => intro fs _ _; rfl
  | cons p ps ih =>
      intro fs hall hfix
      show (do
        let fs1 ← delPropStep elem fs p
        delPropLoop elem ps fs1) = _
      by_cases hkey : fhasKey fs p = true
      · have hep : ¬ elem = p := fun h => (hall p (List.mem_cons_self p ps)) h.symm
        have hstep : delPropStep elem fs p = .ok fs := by
          simp [delPropStep, hkey, hep, hsegs, hfix, pure, Except.pure]
        rw [hstep]
        exact ih fs (fun q hq => hall q (List.mem_cons_of_mem p hq)) hfix
      · have hstep : delPropStep elem fs p = .ok fs := by
          simp [delPropStep, hkey, pure, Except.pure]
        rw [hstep]
        exact ih fs (fun q hq => hall q (List.mem_cons_of_mem p hq)) hfix

theorem delLoop_triple_run {a b c elem : String} (hsegs : segsOf elem = [a, b, c]) :
    ∀ (ps : List String) (fs fsr : Fields), (∀ p ∈ ps, ¬ p = elem) →
      threeSegDelete fs a b c = .ok fsr →
      threeSegDelete fsr a b c = .ok fsr →
      (∃ p ∈ ps, fhasKey fs p = true) →
      delPropLoop elem ps fs = .ok fsr := by
  intro ps
  induction ps with
  | nil => intro fs fsr _ _ _ hex; simp at hex
  | cons p ps ih =>
      intro fs fsr hall hrun hfix hex
      show (do
        let fs1 ← delPropStep elem fs p
        delPropLoop elem ps fs1) = _
      by_cases hkey : fhasKey fs p = true
      · have hep : ¬ elem = p := fun h => (hall p (List.mem_cons_self p ps)) h.symm
        have hstep : delPropStep elem fs p = threeSegDelete fs a b c := by
          simp [delPropStep, hkey, hep, hsegs]
        rw [hstep, hrun]
        exact delLoop_triple_fixed hsegs ps fsr
          (fun q hq => hall q (List.mem_cons_of_mem p hq)) hfix
      · have hstep : delPropStep elem fs p = .ok fs := by
          simp [delPropStep, hkey, pure, Except.pure]
        rw [hstep]
        obtain ⟨w, hw, hwk⟩ := hex
        rcases List.mem_cons.mp hw with h' | h'
        · rw [h'] at hwk; exact absurd hwk hkey
        · exact ih fs fsr (fun q hq => hall q (List.mem_cons_of_mem p hq)) hrun hfix ⟨w, h', hwk⟩

theorem delLoop_deep_throw {elem : String} {a b c d : String} {rest : List String}
    (hsegs : segsOf elem = a :: b :: c :: d :: rest) :
    ∀ (ps : List String) (fs : Fields),
      (∃ p ∈ ps, ¬ p = elem ∧ fhasKey fs p = true) →
      delPropLoop elem ps fs =
        .error ("Nested level " ++ toString (segsOf elem).length ++ " is not supported yet") := by
  intro ps
  induction ps with
  | nil => intro fs hex; simp at hex
  | cons p ps ih =>
      intro fs hex
      show (do
        let fs1 ← delPropStep elem fs p
        delPropLoop elem ps fs1) = _
      by_cases hkey : fhasKey fs p = true
      · by_cases hep : elem = p
        · have hstep : delPropStep elem fs p = .ok (fdel fs p) := by
            simp [delPropStep, hkey, hep, pure, Except.pure]
          rw [hstep]
          show delPropLoop elem ps (fdel fs p) = _
          obtain ⟨w, hw, hwe, hwk⟩ := hex
          rcases List.mem_cons.mp hw with h' | h'
          · exact absurd (h'.trans hep.symm) hwe
          · refine ih (fdel fs p) ⟨w, h', hwe, ?_⟩
            rw [fhasKey, fget_fdel, if_neg (fun h => hwe (h.trans hep.symm))]
            exact hwk
        · have hstep : delPropStep elem fs p =
              .error ("Nested level " ++ toString (segsOf elem).length ++ " is not supported yet") := by
            rw [delPropStep, if_neg (by simp [hkey]), if_neg hep, hsegs]
            rfl
          rw [hstep]
          rfl
      · have hstep : delPropStep elem fs p = .ok fs := by
          simp [delPropStep, hkey, pure, Except.pure]
        rw [hstep]
        obtain ⟨w, hw, hwe, hwk⟩ := hex
        rcases List.mem_cons.mp hw with h' | h'
        · rw [h'] at hwk; exact absurd hwk hkey
        · exact ih fs ⟨w, h', hwe, hwk⟩

theorem deleteKeysFromObject1_pair {fs nfs : Fields} {elem a b : String}
    (hsegs : segsOf elem = [a, b])
    (hga : fget fs a = some (.obj nfs)) (hflat : fhasKey fs elem = false) :
    deleteKeysFromObject1 (.obj fs) elem =
      .ok (.obj (if (fdel nfs b).isEmpty then fdel fs a
                 else fset fs a (.obj (fdel nfs b)))) := by
  show (do
    let fs' ← delPropLoop elem (fkeys fs) fs
    pure (Val.obj fs')) = _
  rw [delLoop_pair_run hsegs (fkeys fs) fs ?hall (twoSeg_idem hga b) ?hex]
  · rw [twoSegDelete_obj hga]
    rfl
  case hall =>
    intro p hp hpe
    rw [hpe] at hp
    have h1 : (fget fs elem).isSome = true := fget_isSome_of_mem hp
    rw [show fhasKey fs elem = (fget fs elem).isSome from rfl, h1] at hflat
    cases hflat
  case hex =>
    exact ⟨a, mem_of_fget_isSome (by rw [hga]; rfl),
      by rw [show fhasKey fs a = (fget fs a).isSome from rfl, hga]; rfl⟩

theorem deleteKeysFromObject1_triple {fs nfs dfs : Fields} {elem a b c : String}
    (hsegs : segsOf elem = [a, b, c])
    (hga : fget fs a = some (.obj nfs)) (hgb : fget nfs b = some (.obj dfs))
    (hflat : fhasKey fs elem = false) :
    deleteKeysFromObject1 (.obj fs) elem =
      .ok (.obj (fset fs a (.obj (fset nfs b (.obj (fdel dfs c)))))) := by
  show (do
    let fs' ← delPropLoop elem (fkeys fs) fs
    pure (Val.obj fs')) = _
  rw [delLoop_triple_run hsegs (fkeys fs) fs _ ?hall (threeSegDelete_obj hga hgb c)
    (threeSeg_idem hga hgb) ?hex]
  · rfl
  case hall =>
    intro p hp hpe
    rw [hpe] at hp
    have h1 : (fget fs elem).isSome = true := fget_isSome_of_mem hp
    rw [show fhasKey fs elem = (fget fs elem).isSome from rfl, h1] at hflat
    cases hflat
  case hex =>
    exact ⟨a, mem_of_fget_isSome (by rw [hga]; rfl),
      by rw [show fhasKey fs a = (fget fs a).isSome from rfl, hga]; rfl⟩

theorem deleteKeysFromObject1_deep {fs : Fields} {elem a b c d : String} {rest : List String}
    (hsegs : segsOf elem = a :: b :: c :: d :: rest)
    {p : String} (hp : p ∈ fkeys fs) (hpe : ¬ p = elem) :
    deleteKeysFromObject1 (.obj fs) elem =
      .error ("Nested level " ++ toString (segsOf elem).length ++ " is not supported yet") := by
  show (do
    let fs' ← delPropLoop elem (fkeys fs) fs
    pure (Val.obj fs')) = _
  rw [delLoop_deep_throw hsegs (fkeys fs) fs ⟨p, hp, hpe, fget_isSome_of_mem hp⟩]
  rfl

/-! ### Lemmas for merge, execute and save -/

theorem fget_objectWithout (ks : List String) (fs : Fields) (q : String) :
    fget (objectWithoutF ks fs) q = if q ∈ ks then none else fget fs q := by
  induction fs with
  | nil => simp [objectWithoutF, fget]
  | cons p fs ih =>
      by_cases hpc : p.1 ∈ ks
      · rw [show objectWithoutF ks (p :: fs) = objectWithoutF ks fs by
          simp [objectWithoutF, hpc], ih]
        by_cases hq : q ∈ ks
        · simp [hq]
        · have hpq : ¬ p.1 = q := fun h => hq (h ▸ hpc)
          simp [hq, fget, hpq]
      · rw [show objectWithoutF ks (p :: fs) = p :: objectWithoutF ks fs by
          simp [objectWithoutF, hpc]]
        by_cases hpq : p.1 = q
        · have hq : q ∉ ks := fun h => hpc (hpq ▸ h)
          simp [fget, hpq, hq]
        · simp [fget, hpq, ih]

theorem fget_pureAssign (a : Fields) :
    ∀ {b : Fields}, (fkeys b).Nodup → ∀ q,
      fget (pureAssignF a b) q =
        (match fget b q with
         | some v => some v
         | none => fget a q) := by
  intro b
  induction b generalizing a with
  | nil => intro _ q; rfl
  | cons p b ih =>
      intro hnd q
      have hk : p.1 ∉ fkeys b := by
        have := hnd
        simp [fkeys] at this
        simpa [fkeys] using this.1
      have hnd' : (fkeys b).Nodup := by
        have := hnd
        simp [fkeys] at this ⊢
        exact this.2
      rw [show pureAssignF a (p :: b) = pureAssignF (fset a p.1 p.2) b from rfl,
        ih (fset a p.1 p.2) hnd' q]
      by_cases hq : q = p.1
      · have hb : fget b q = none := by
          rcases hg : fget b q with _ | w
          · rfl
          · exact absurd (hq ▸ mem_of_fget_isSome (by rw [hg]; rfl)) hk
        rw [hb, hq]
        simp [fget_fset, fget]
      · have hpq : ¬ p.1 = q := fun h => hq h.symm
        rw [show fget (p :: b) q = fget b q by simp [fget, hpq]]
        rcases hg : fget b q with _ | w
        · simp [fget_fset, hq]
        · rfl

/-- `setProperties` over a changes buffer whose own keys are all undotted is
one top-level assignment per entry, i.e. a shallow overlay. -/
theorem setPropertiesV_undotted {cf : Fields} :
    ∀ {chf : Fields}, (∀ p ∈ chf, segsOf p.1 = [p.1]) →
      setPropertiesV (.obj cf) chf = .ok (.obj (pureAssignF cf chf)) := by
  intro chf
  induction chf generalizing cf with
  | nil => intro _; rfl
  | cons p chf ih =>
      intro hu
      show (do
        let x ← emberSetPath (.obj cf) (segsOf p.1) p.2
        List.foldlM (fun (acc : Val) (q : String × Val) =>
          emberSetPath acc (segsOf q.1) q.2) x chf) = _
      rw [show emberSetPath (Val.obj cf) (segsOf p.1) p.2 = .ok (.obj (fset cf p.1 p.2)) by
        rw [hu p (List.mem_cons_self p chf)]; rfl]
      show setPropertiesV (.obj (fset cf p.1 p.2)) chf = _
      rw [ih (fun q hq => hu q (List.mem_cons_of_mem p hq))]
      rfl

theorem execute_buffers {cs cs1 : Changeset} (h : execute cs = .ok cs1) :
    cs1.changes = cs.changes ∧ cs1.errors = cs.errors ∧
    cs1.contentId = cs.contentId := by
  unfold execute at h
  split_ifs at h
  · rcases hs : setPropertiesV cs.content (objFields cs.changes) with e | c'
    · rw [hs] at h; simp [Bind.bind, Except.bind] at h
    · rw [hs] at h
      simp only [Bind.bind, Except.bind, pure, Except.pure, Except.ok.injEq] at h
      exact ⟨(congrArg Changeset.changes h).symm, (congrArg Changeset.errors h).symm,
        (congrArg Changeset.contentId h).symm⟩
  · have : cs = cs1 := by simpa [pure, Except.pure] using h
    rw [← this]
    exact ⟨rfl, rfl, rfl⟩

theorem save_spec (cs cs1 : Changeset) (opts : Val) (hexec : execute cs = .ok cs1) :
    (save cs none opts = .ok (rollback cs1, .ok .selfChangeset)) ∧
    (∀ (f : Val → Val → Except String Val) (r : Val), f cs1.content opts = .ok r →
        save cs (some f) opts = .ok (rollback cs1, .ok (.value r))) ∧
    (∀ (f : Val → Val → Except String Val) (e : String), f cs1.content opts = .error e →
        save cs (some f) opts = .ok (cs1, .error e)) ∧
    cs1.changes = cs.changes ∧ cs1.errors = cs.errors ∧
    (rollback cs1).changes = .obj [] ∧ (rollback cs1).errors = .obj [] := by
  obtain ⟨hb1, hb2, _⟩ := execute_buffers hexec
  refine ⟨?_, ?_, ?_, hb1, hb2, rfl, rfl⟩
  · unfold save
    rw [hexec]
    rfl
  · intro f r hf
    unfold save
    rw [hexec]
    show (match f cs1.content opts with
      | .ok r => pure (rollback cs1, .ok (.value r))
      | .error e => pure (cs1, .error e) : Except String (Changeset × Except String SaveResult)) = _
    rw [hf]
    rfl
  · intro f e hf
    unfold save
    rw [hexec]
    show (match f cs1.content opts with
      | .ok r => pure (rollback cs1, .ok (.value r))
      | .error e => pure (cs1, .error e) : Except String (Changeset × Except String SaveResult)) = _
    rw [hf]
    rfl

/-! ### Heap lemmas for the snapshot claim -/

theorem hfind_hstore (h : Heap) (r : Nat) (o : HObj) (r' : Nat) :
    hfind (hstore h r o) r' = if r' = r then some o else hfind h r' := by
  induction h with
  | nil =>
      show (if r = r' then some o else hfind [] r') = if r' = r then some o else hfind [] r'
      by_cases hr : r' = r
      · rw [if_pos hr, if_pos hr.symm]
      · rw [if_neg hr, if_neg (fun hh : r = r' => hr hh.symm)]
  | cons p h ih =>
      by_cases hpr : p.1 = r
      · rw [show hstore (p :: h) r o = (r, o) :: h by simp [hstore, hpr]]
        by_cases hr : r' = r
        · simp [hfind, hr]
        · have h1 : ¬ r = r' := fun hh => hr hh.symm
          have h2 : ¬ p.1 = r' := fun hh => hr ((hpr.symm.trans hh).symm)
          simp [hfind, h1, h2, hr]
      · rw [show hstore (p :: h) r o = p :: hstore h r o by simp [hstore, hpr]]
        show hfind (p :: hstore h r o) r' = _
        by_cases hpq : p.1 = r'
        · have hr : ¬ r' = r := fun hh => hpr (hpq.trans hh)
          simp [hfind, hpq, hr]
        · simp [hfind, hpq, ih]

theorem le_foldr_max {l : List Nat} : ∀ {r : Nat}, r ∈ l → r ≤ l.foldr max 0 := by
  induction l with
  | nil => intro r hr; simp at hr
  | cons a l ih =>
      intro r hr
      rcases List.mem_cons.mp hr with h | h
      · rw [h]; exact Nat.le_max_left a (l.foldr max 0)
      · exact Nat.le_trans (ih h) (Nat.le_max_right a (l.foldr max 0))

theorem freshRef_ne {h : Heap} {r : Nat} (hr : r ∈ h.map Prod.fst) :
    ¬ freshRef h = r := by
  intro he
  have h1 : r ≤ (h.map Prod.fst).foldr max 0 := le_foldr_max hr
  rw [← he] at h1
  exact Nat.not_succ_le_self _ h1

/-! ### No buffer operation touches the content -/

theorem addError_content {cs cs' : Changeset} {k : String} {options : Val}
    (hok : addError cs k options = .ok cs') :
    cs'.content = cs.content ∧ cs'.contentId = cs.contentId := by
  unfold addError at hok
  simp only [] at hok
  rcases hdc : deleteKeyOp cs.changes k with e | changes1
  · rw [hdc] at hok
    simp [Bind.bind, Except.bind] at hok
  · rw [hdc] at hok
    simp only [Bind.bind, Except.bind, pure, Except.pure, Except.ok.injEq] at hok
    exact ⟨(congrArg Changeset.content hok).symm, (congrArg Changeset.contentId hok).symm⟩

theorem pushErrors_tail_content {cs cs' : Changeset} {k : String} {value : Val}
    {vlist : List Val}
    (hok : (do
        let changes' ← deleteKeyOp cs.changes k
        let errors' ← emberSetPath cs.errors (segsOf k) (errRecord value (.arr vlist))
        pure { cs with changes := changes', errors := errors' } :
        Except String Changeset) = .ok cs') :
    cs'.content = cs.content ∧ cs'.contentId = cs.contentId := by
  rcases hdc : deleteKeyOp cs.changes k with e | changes1
  · rw [hdc] at hok
    simp [Bind.bind, Except.bind] at hok
  · rw [hdc] at hok
    simp only [Bind.bind, Except.bind] at hok
    rcases hse : emberSetPath cs.errors (segsOf k) (errRecord value (.arr vlist)) with e | errors1
    · rw [hse] at hok
      simp [Bind.bind, Except.bind] at hok
    · rw [hse] at hok
      simp only [Bind.bind, Except.bind, pure, Except.pure, Except.ok.injEq] at hok
      exact ⟨(congrArg Changeset.content hok).symm, (congrArg Changeset.contentId hok).symm⟩

theorem pushErrors_content {cs cs' : Changeset} {k : String} {msgs : List Val}
    (hok : pushErrors cs k msgs = .ok cs') :
    cs'.content = cs.content ∧ cs'.contentId = cs.contentId := by
  unfold pushErrors at hok
  simp only [] at hok
  repeat' split at hok
  all_goals
    first
    | exact pushErrors_tail_content hok
    | simp [Bind.bind, Except.bind, throw, throwThe, MonadExceptOf.throw] at hok

theorem setPropertyStep_content {cs cs' : Changeset} {validation value oldValue : Val}
    {k : String} (hok : setPropertyStep cs validation k value oldValue = .ok cs') :
    cs'.content = cs.content ∧ cs'.contentId = cs.contentId := by
  unfold setPropertyStep at hok
  split at hok
  · rcases hde : deleteKeyOp cs.errors k with e | errors1
    · rw [hde] at hok
      simp [Bind.bind, Except.bind] at hok
    · rw [hde] at hok
      simp only [Bind.bind, Except.bind] at hok
      split at hok
      · simp only [Bind.bind, Except.bind, pure, Except.pure, Except.ok.injEq] at hok
        exact ⟨(congrArg Changeset.content hok).symm, (congrArg Changeset.contentId hok).symm⟩
      · split at hok
        · rcases hdc : deleteKeyOp cs.changes k with e | changes1
          · rw [hdc] at hok
            simp [Bind.bind, Except.bind] at hok
          · rw [hdc] at hok
            simp only [Bind.bind, Except.bind, pure, Except.pure, Except.ok.injEq] at hok
            exact ⟨(congrArg Changeset.content hok).symm,
              (congrArg Changeset.contentId hok).symm⟩
        · simp only [Bind.bind, Except.bind, pure, Except.pure, Except.ok.injEq] at hok
          exact ⟨(congrArg Changeset.content hok).symm,
            (congrArg Changeset.contentId hok).symm⟩
  · exact addError_content hok

theorem applyOp_content {cs cs' : Changeset} {op : COp}
    (hok : applyOp cs op = .ok cs') :
    cs'.content = cs.content ∧ cs'.contentId = cs.contentId := by
  cases op with
  | addErr k o => exact addError_content hok
  | pushErr k ms => exact pushErrors_content hok
  | write k v out =>
      unfold applyOp at hok
      dsimp only at hok
      rcases hva : validateAndSet cs k v out with e | pr
      · rw [hva] at hok; simp [Except.map] at hok
      · rw [hva] at hok
        obtain ⟨cs2, evs⟩ := pr
        have hcs : cs2 = cs' := by simpa [Except.map] using hok
        subst hcs
        unfold validateAndSet at hva
        by_cases hskip : cs.skipValidate = true
        · simp only [hskip, if_true] at hva
          rcases hsp : setPropertyStep cs (.bool true) k v .undef with e | c
          · rw [hsp] at hva; simp [Bind.bind, Except.bind] at hva
          · rw [hsp] at hva
            have h2 : c = cs2 := by
              replace hva : (pure (c, ([] : List VEvent)) :
                  Except String (Changeset × List VEvent)) = .ok (cs2, evs) := hva
              exact (by simpa [pure, Except.pure, Prod.mk.injEq] using hva : _ ∧ _).1
            rw [← h2]
            exact setPropertyStep_content hsp
        · have hf : cs.skipValidate = false := by
            cases h : cs.skipValidate
            · rfl
            · exact absurd h hskip
          simp only [hf, Bool.false_eq_true, if_false] at hva
          cases out with
          | sync raw =>
              dsimp only at hva
              rcases hsp : setPropertyStep cs (coerceValidation raw) k v
                  (recursivelyGet k cs.content) with e | c
              · rw [hsp] at hva; simp [Bind.bind, Except.bind] at hva
              · rw [hsp] at hva
                have h2 : c = cs2 := by
                  replace hva : (pure (c, [VEvent.beforeValidation k, VEvent.afterValidation k]) :
                      Except String (Changeset × List VEvent)) = .ok (cs2, evs) := hva
                  exact (by simpa [pure, Except.pure, Prod.mk.injEq] using hva : _ ∧ _).1
                rw [← h2]
                exact setPropertyStep_content hsp
          | async resolved =>
              dsimp only at hva
              have hfa := setIsValidating_fields cs k true
              have hfb := setIsValidating_fields (setIsValidating cs k true) k false
              rcases hsp : setPropertyStep (setIsValidating (setIsValidating cs k true) k false)
                  resolved k v (recursivelyGet k cs.content) with e | c
              · rw [hsp] at hva; simp [Bind.bind, Except.bind] at hva
              · rw [hsp] at hva
                have h2 : c = cs2 := by
                  replace hva : (pure (c, [VEvent.beforeValidation k, VEvent.afterValidation k]) :
                      Except String (Changeset × List VEvent)) = .ok (cs2, evs) := hva
                  exact (by simpa [pure, Except.pure, Prod.mk.injEq] using hva : _ ∧ _).1
                rw [← h2]
                obtain ⟨hc1, hc2⟩ := setPropertyStep_content hsp
                exact ⟨by rw [hc1, hfb.2.2.1, hfa.2.2.1], by rw [hc2, hfb.2.2.2, hfa.2.2.2]⟩

/-! ## Claim theorems -/

/-- C2: `read(key)` (`valueFor`/`unknownProperty`) returns the first
applicable of: the `value` field of an error record at the key, the cached
relay, the pending change (including a falsy-but-present one), a fresh relay
when the content's raw value is a mapping, and otherwise the raw content
value — and reading an unknown key never raises (`valueFor` is a total
function in the embedding). -/
theorem C2_read_priority_chain (cs : Changeset) (key : String) :
    valueFor cs key = readSpec cs key :=
  valueFor_eq_readSpec cs key

/-- C1 (amended): for a `write` with `skipValidate` unset and a synchronous
validator result, on a key of at most three segments and metadata-free
mapping buffers: an accepted result (`true` or `[true]` after `_validate`'s
absent-result coercion) leaves no error at the key, stores the value when it
differs from the content's current value, and — when equal — removes the
pending change only if it sits at the literal own property (a nested stale
change is left in place, the buffer otherwise untouched); any other
(present) result installs `{value, validation}` at the key and evicts the
pending change at that exact path. -/
theorem C1_write_validation_semantics {cs : Changeset} {key : String} {value raw : Val}
    {cs' : Changeset} {evs : List VEvent}
    (hskip : cs.skipValidate = false)
    {chf erf : Fields} (hch : cs.changes = .obj chf) (her : cs.errors = .obj erf)
    (hmeta : fget erf "__ember_meta__" = none)
    (hlen : (segsOf key).length ≤ 3)
    (hok : validateAndSet cs key value (.sync raw) = .ok (cs', evs)) :
    (acceptedValidation (coerceValidation raw) = true →
        isNoneV (recursivelyGet key cs'.errors) = true ∧
        (¬ recursivelyGet key cs.content = value →
            recursivelyGet key cs'.changes = value) ∧
        (recursivelyGet key cs.content = value → hasOwnKey cs.changes key = true →
            isNoneV (recursivelyGet key cs'.changes) = true) ∧
        (recursivelyGet key cs.content = value → hasOwnKey cs.changes key = false →
            cs'.changes = cs.changes)) ∧
    (acceptedValidation (coerceValidation raw) = false →
        recursivelyGet key cs'.errors = errRecord value (coerceValidation raw) ∧
        isNoneV (recursivelyGet key cs'.changes) = true) :=
  writeSyncSpec hskip hch her hmeta hlen hok

def csC1 : Changeset := initChangeset 0 0 (.obj [("name", .str "Jim Bob")]) false

def csC1' : Changeset :=
  { contentId := 0, validatorId := 0, content := .obj [("name", .str "Jim Bob")],
    changes := .obj [],
    errors := .obj [("name", .obj [("value", .str "a"), ("validation", .str "too short")])],
    relayCache := [], running := [], skipValidate := false }

theorem C1_write_validation_semantics_witness :
    csC1.skipValidate = false ∧
    csC1.changes = .obj [] ∧
    csC1.errors = .obj [] ∧
    fget ([] : Fields) "__ember_meta__" = none ∧
    (segsOf "name").length ≤ 3 ∧
    validateAndSet csC1 "name" (Val.str "a") (VOutcome.sync (Val.str "too short")) =
      Except.ok (csC1', [VEvent.beforeValidation "name", VEvent.afterValidation "name"]) ∧
    (acceptedValidation (coerceValidation (.str "too short")) = false →
        recursivelyGet "name" csC1'.errors = errRecord (.str "a") (.str "too short") ∧
        isNoneV (recursivelyGet "name" csC1'.changes) = true) :=
  ⟨rfl, rfl, rfl, rfl, by decide, by decide,
   (@C1_write_validation_semantics csC1 "name" (Val.str "a") (Val.str "too short") csC1'
     [VEvent.beforeValidation "name", VEvent.afterValidation "name"]
     rfl [] [] rfl rfl rfl (by decide) (by decide)).2⟩

/-- C1 as stated is false: with content `{a: {b: "x"}}`, an accepted write of
`"y"` at `"a.b"` followed by an accepted write of the original `"x"` at the
same key leaves the stale pending change `"y"` in the buffer — the pending
change at the key is not removed, because `_setProperty` checks
`changes.hasOwnProperty(key)` with the full dotted key while the change is
stored nested. -/
theorem C1_claim_counterexample :
    ((do
        let (c1, _) ← validateAndSet (initChangeset 0 0
          (.obj [("a", .obj [("b", .str "x")])]) false)
          "a.b" (.str "y") (.sync (.bool true))
        let (c2, _) ← validateAndSet c1 "a.b" (.str "x") (.sync (.bool true))
        pure (isNoneV (recursivelyGet "a.b" c2.changes), recursivelyGet "a.b" c2.changes)) :
      Except String (Bool × Val)) = .ok (false, .str "y") := by
  decide

/-- C10: a synchronous changeset-wide validator result for which
`Ember.isPresent` fails — `undefined`, `null`, the empty string or the empty
array — is coerced by `_validate` to `true`: no error record is installed
and the value is stored as a change exactly when it differs from the
content's current value at the key. -/
theorem C10_absent_validation_accepted {cs : Changeset} {key : String} {value raw : Val}
    {cs' : Changeset} {evs : List VEvent}
    (hraw : raw = .undef ∨ raw = .null ∨ raw = .str "" ∨ raw = .arr [])
    (hskip : cs.skipValidate = false)
    {chf erf : Fields} (hch : cs.changes = .obj chf) (her : cs.errors = .obj erf)
    (hmeta : fget erf "__ember_meta__" = none)
    (hlen : (segsOf key).length ≤ 3)
    (hok : validateAndSet cs key value (.sync raw) = .ok (cs', evs)) :
    isNoneV (recursivelyGet key cs'.errors) = true ∧
    (¬ recursivelyGet key cs.content = value →
        recursivelyGet key cs'.changes = value) ∧
    (recursivelyGet key cs.content = value → hasOwnKey cs.changes key = false →
        cs'.changes = cs.changes) := by
  have hacc : acceptedValidation (coerceValidation raw) = true := by
    rcases hraw with h | h | h | h <;> rw [h] <;> rfl
  obtain ⟨h1, h2, _, h4⟩ := (writeSyncSpec hskip hch her hmeta hlen hok).1 hacc
  exact ⟨h1, h2, h4⟩

def csC10 : Changeset := initChangeset 0 0 (.obj [("name", .str "Jim Bob")]) false

def csC10' : Changeset :=
  { contentId := 0, validatorId := 0, content := .obj [("name", .str "Jim Bob")],
    changes := .obj [("name", .str "foo")], errors := .obj [],
    relayCache := [], running := [], skipValidate := false }

theorem C10_absent_validation_accepted_witness :
    ((Val.undef = Val.undef ∨ Val.undef = Val.null ∨ Val.undef = Val.str "" ∨
        Val.undef = Val.arr []) ∧
      csC10.skipValidate = false ∧
      csC10.changes = .obj [] ∧ csC10.errors = .obj [] ∧
      fget ([] : Fields) "__ember_meta__" = none ∧
      (segsOf "name").length ≤ 3 ∧
      validateAndSet csC10 "name" (Val.str "foo") (VOutcome.sync Val.undef) =
        Except.ok (csC10', [VEvent.beforeValidation "name", VEvent.afterValidation "name"])) ∧
    isNoneV (recursivelyGet "name" csC10'.errors) = true ∧
    (¬ recursivelyGet "name" csC10.content = .str "foo" →
        recursivelyGet "name" csC10'.changes = .str "foo") :=
  ⟨⟨Or.inl rfl, rfl, rfl, rfl, rfl, by decide, by decide⟩,
   (@C10_absent_validation_accepted csC10 "name" (Val.str "foo") Val.undef csC10'
     [VEvent.beforeValidation "name", VEvent.afterValidation "name"]
     (Or.inl rfl) rfl [] [] rfl rfl rfl (by decide) (by decide)).1,
   (@C10_absent_validation_accepted csC10 "name" (Val.str "foo") Val.undef csC10'
     [VEvent.beforeValidation "name", VEvent.afterValidation "name"]
     (Or.inl rfl) rfl [] [] rfl rfl rfl (by decide) (by decide)).2.1⟩

/-- C3 (amended): over every sequence of buffer-mutating operations
(`write` with any synchronous or asynchronous validator outcome, `addError`,
`pushErrors`; `validate` is `write` per key) whose keys are all undotted,
starting from a fresh changeset, no key is ever an own property of both the
changes buffer and the errors buffer simultaneously. -/
theorem C3_buffer_key_disjointness (ops : List COp)
    (hkeys : ∀ op ∈ ops, segsOf op.key = [op.key])
    (cid vid : Nat) (content : Val) (skip : Bool) (cs' : Changeset)
    (hrun : runOps (initChangeset cid vid content skip) ops = .ok cs') (q : String) :
    (fget (objFields cs'.changes) q).isSome = false ∨
    (fget (objFields cs'.errors) q).isSome = false := by
  obtain ⟨chf, erf, hch, her, h⟩ :=
    runOps_disjoint hkeys ⟨[], [], rfl, rfl, fun _ => Or.inl rfl⟩ hrun
  rw [hch, her]
  exact h q

def opsC3 : List COp :=
  [.write "name" (.str "a") (.sync (.str "too short")),
   .write "age" (.num 21) (.sync (.bool true)),
   .pushErr "name" [.str "x"],
   .addErr "mail" (.str "taken")]

def csC3' : Changeset :=
  { contentId := 0, validatorId := 0, content := .obj [],
    changes := .obj [("age", .num 21)],
    errors := .obj
      [("name", .obj [("value", .str "a"),
          ("validation", .arr [.str "too short", .str "x"])]),
       ("mail", .obj [("value", .undef), ("validation", .str "taken")])],
    relayCache := [], running := [], skipValidate := false }

theorem C3_buffer_key_disjointness_witness :
    (∀ op ∈ opsC3, segsOf op.key = [op.key]) ∧
    runOps (initChangeset 0 0 (.obj []) false) opsC3 = .ok csC3' ∧
    ((fget (objFields csC3'.changes) "name").isSome = false ∨
     (fget (objFields csC3'.errors) "name").isSome = false) :=
  ⟨by decide, by decide,
   C3_buffer_key_disjointness opsC3 (by decide) 0 0 (.obj []) false csC3' (by decide) "name"⟩

/-- C3 as stated is false for dotted paths: after `addError('a', 'msg')` and
an accepted `write('a.b', 'v')`, the exact path `"a"` is present (walks to a
non-none value) in both the changes buffer (`{a: {b: "v"}}`) and the errors
buffer (`{a: {value, validation}}`) — the accepted write evicts only the
error at `"a.b"`, not the record at the ancestor `"a"`. -/
theorem C3_claim_counterexample :
    (runOps (initChangeset 0 0 (.obj []) false)
      [.addErr "a" (.str "msg"), .write "a.b" (.str "v") (.sync (.bool true))]).map
      (fun c => !isNoneV (recursivelyGet "a" c.changes) &&
                !isNoneV (recursivelyGet "a" c.errors)) = .ok true := by
  decide

/-- C4: `execute()` updates the content if and only if the changeset is
valid (errors buffer empty) and dirty (changes buffer non-empty): in that
case, for an undotted changes buffer, the new content is the old content
overlaid per key with the changes buffer; otherwise the content is returned
completely unchanged — and no buffer operation (`write`/`addError`/
`pushErrors`), nor `rollback`, `restore`, `cast` or `merge`, ever touches
the content. -/
theorem C4_execute_content_frame :
    (∀ cs : Changeset, (isValidB cs && isDirtyB cs) = false → execute cs = .ok cs) ∧
    (∀ (cs : Changeset) (cf : Fields), cs.content = .obj cf →
        (isValidB cs && isDirtyB cs) = true →
        (∀ p ∈ objFields cs.changes, segsOf p.1 = [p.1]) →
        execute cs = .ok { cs with content := .obj (pureAssignF cf (objFields cs.changes)) }) ∧
    (∀ (cf chf : Fields), (fkeys chf).Nodup → ∀ q : String,
        fget (pureAssignF cf chf) q =
          (match fget chf q with
           | some v => some v
           | none => fget cf q)) ∧
    (∀ (cs cs' : Changeset) (op : COp), applyOp cs op = .ok cs' →
        cs'.content = cs.content) ∧
    (∀ cs : Changeset, (rollback cs).content = cs.content) ∧
    (∀ (cs : Changeset) (c e : Val), (restore cs c e).content = cs.content) ∧
    (∀ (cs : Changeset) (ks : List String), (castChangeset cs ks).content = cs.content) ∧
    (∀ (a c : Changeset) (arg : MergeArg), merge a arg = .ok c →
        c.content = a.content) := by
  refine ⟨?_, ?_, ?_, ?_, ?_, ?_, ?_, ?_⟩
  · intro cs h
    unfold execute
    rw [if_neg (by simp [h])]
    rfl
  · intro cs cf hcf hvd hu
    unfold execute
    rw [if_pos hvd, hcf, show setPropertiesV (Val.obj cf) (objFields cs.changes) =
      .ok (.obj (pureAssignF cf (objFields cs.changes))) from setPropertiesV_undotted hu]
    rfl
  · intro cf chf hnd q
    exact fget_pureAssign cf hnd q
  · intro cs cs' op h
    exact (applyOp_content h).1
  · intro cs
    rfl
  · intro cs c e
    rfl
  · intro cs ks
    unfold castChangeset
    split_ifs <;> rfl
  · intro a c arg hok
    cases arg with
    | nonChangeset v =>
        simp [merge, throw, throwThe, MonadExceptOf.throw] at hok
    | changesetArg b =>
        unfold merge at hok
        dsimp only at hok
        by_cases h1 : b.contentId ≠ a.contentId
        · rw [if_pos h1] at hok
          exact Except.noConfusion hok
        · rw [if_neg h1] at hok
          by_cases h2 : (isPristineB a && isPristineB b) = true
          · rw [if_pos h2] at hok
            have h : a = c := by simpa [pure, Except.pure] using hok
            rw [← h]
          · rw [if_neg h2] at hok
            simp only [pure, Except.pure, Except.ok.injEq] at hok
            exact (congrArg Changeset.content hok).symm

def csC4 : Changeset :=
  { contentId := 0, validatorId := 0, content := .obj [],
    changes := .obj [("name", .str "foo")], errors := .obj [],
    relayCache := [], running := [], skipValidate := false }

theorem C4_execute_content_frame_witness :
    (csC4.content = Val.obj [] ∧
      (isValidB csC4 && isDirtyB csC4) = true ∧
      (∀ p ∈ objFields csC4.changes, segsOf p.1 = [p.1])) ∧
    execute csC4 = .ok { csC4 with content := .obj (pureAssignF [] (objFields csC4.changes)) } :=
  ⟨⟨rfl, by decide, by decide⟩,
   C4_execute_content_frame.2.1 csC4 [] rfl (by decide) (by decide)⟩

/-- C5: `merge(other)` throws for a non-changeset argument and for a
changeset over different content; for two pristine changesets it returns
`this` itself; otherwise it builds a new changeset over the same content and
validator whose changes buffer is (this's changes without the keys erroring
in `other`) overlaid with `other`'s changes, and whose errors buffer is
(this's errors without the keys changed in `other`) overlaid with `other`'s
errors — the inputs' buffers are values here, so they are not mutated. -/
theorem C5_merge_semantics :
    (∀ (a : Changeset) (v : Val),
        merge a (.nonChangeset v) = .error "Cannot merge with a non-changeset") ∧
    (∀ a b : Changeset, ¬ b.contentId = a.contentId →
        merge a (.changesetArg b) =
          .error "Cannot merge with a changeset of different content") ∧
    (∀ a b : Changeset, b.contentId = a.contentId →
        isPristineB a = true → isPristineB b = true →
        merge a (.changesetArg b) = .ok a) ∧
    (∀ (a b c : Changeset), b.contentId = a.contentId →
        ¬ (isPristineB a && isPristineB b) = true →
        merge a (.changesetArg b) = .ok c →
        c.content = a.content ∧ c.contentId = a.contentId ∧
        c.validatorId = a.validatorId ∧
        ((fkeys (objFields b.changes)).Nodup → ∀ q : String,
            fget (objFields c.changes) q =
              (match fget (objFields b.changes) q with
               | some v => some v
               | none =>
                   if q ∈ fkeys (objFields b.errors) then none
                   else fget (objFields a.changes) q)) ∧
        ((fkeys (objFields b.errors)).Nodup → ∀ q : String,
            fget (objFields c.errors) q =
              (match fget (objFields b.errors) q with
               | some v => some v
               | none =>
                   if q ∈ fkeys (objFields b.changes) then none
                   else fget (objFields a.errors) q))) := by
  refine ⟨fun a v => rfl, ?_, ?_, ?_⟩
  · intro a b h
    unfold merge
    dsimp only
    rw [if_pos (show b.contentId ≠ a.contentId from h)]
    rfl
  · intro a b hid hpa hpb
    unfold merge
    dsimp only
    rw [if_neg (show ¬ b.contentId ≠ a.contentId from fun hne => hne hid),
      if_pos (show (isPristineB a && isPristineB b) = true by rw [hpa, hpb]; rfl)]
    rfl
  · intro a b c hid hpp hok
    unfold merge at hok
    dsimp only at hok
    rw [if_neg (show ¬ b.contentId ≠ a.contentId from fun hne => hne hid),
      if_neg hpp] at hok
    simp only [pure, Except.pure, Except.ok.injEq] at hok
    refine ⟨(congrArg Changeset.content hok).symm, (congrArg Changeset.contentId hok).symm,
      (congrArg Changeset.validatorId hok).symm, ?_, ?_⟩
    · intro hnd q
      have hcc : c.changes = .obj (pureAssignF
          (objectWithoutF (fkeys (objFields b.errors)) (objFields a.changes))
          (objFields b.changes)) := (congrArg Changeset.changes hok).symm
      rw [hcc]
      show fget (pureAssignF (objectWithoutF (fkeys (objFields b.errors))
          (objFields a.changes)) (objFields b.changes)) q = _
      rw [fget_pureAssign _ hnd q]
      rcases hg : fget (objFields b.changes) q with _ | w
      · dsimp only
        exact fget_objectWithout _ _ q
      · rfl
    · intro hnd q
      have hce : c.errors = .obj (pureAssignF
          (objectWithoutF (fkeys (objFields b.changes)) (objFields a.errors))
          (objFields b.errors)) := (congrArg Changeset.errors hok).symm
      rw [hce]
      show fget (pureAssignF (objectWithoutF (fkeys (objFields b.changes))
          (objFields a.errors)) (objFields b.errors)) q = _
      rw [fget_pureAssign _ hnd q]
      rcases hg : fget (objFields b.errors) q with _ | w
      · dsimp only
        exact fget_objectWithout _ _ q
      · rfl

def csC5a : Changeset :=
  { contentId := 0, validatorId := 0, content := .obj [],
    changes := .obj [("firstName", .str "Jim")], errors := .obj [],
    relayCache := [], running := [], skipValidate := false }

def csC5b : Changeset :=
  { contentId := 0, validatorId := 0, content := .obj [],
    changes := .obj [("lastName", .str "Bob")], errors := .obj [],
    relayCache := [], running := [], skipValidate := false }

def csC5m : Changeset :=
  { contentId := 0, validatorId := 0, content := .obj [],
    changes := .obj [("firstName", .str "Jim"), ("lastName", .str "Bob")],
    errors := .obj [], relayCache := [], running := [], skipValidate := false }

theorem C5_merge_semantics_witness :
    (csC5b.contentId = csC5a.contentId ∧
      ¬ (isPristineB csC5a && isPristineB csC5b) = true ∧
      merge csC5a (.changesetArg csC5b) = .ok csC5m) ∧
    csC5m.content = csC5a.content ∧
    fget (objFields csC5m.changes) "firstName" =
      (match fget (objFields csC5b.changes) "firstName" with
       | some v => some v
       | none =>
           if "firstName" ∈ fkeys (objFields csC5b.errors) then none
           else fget (objFields csC5a.changes) "firstName") :=
  ⟨⟨rfl, by decide, by decide⟩,
   (C5_merge_semantics.2.2.2 csC5a csC5b csC5m rfl (by decide) (by decide)).1,
   (C5_merge_semantics.2.2.2 csC5a csC5b csC5m rfl (by decide) (by decide)).2.2.2.1
     (by decide) "firstName"⟩

/-- C6: `save(options)` first runs `execute()`; with no content save
function it resolves with the changeset itself after a rollback; with a save
function that resolves, it rolls back (both buffers cleared) and resolves
with the underlying result; with a save function that rejects, the rejection
is propagated and the buffers are left exactly as they were (no rollback —
`execute` itself never touches the buffers). -/
theorem C6_save_semantics (cs cs1 : Changeset) (opts : Val)
    (hexec : execute cs = .ok cs1) :
    (save cs none opts = .ok (rollback cs1, .ok .selfChangeset)) ∧
    (∀ (f : Val → Val → Except String Val) (r : Val), f cs1.content opts = .ok r →
        save cs (some f) opts = .ok (rollback cs1, .ok (.value r))) ∧
    (∀ (f : Val → Val → Except String Val) (e : String), f cs1.content opts = .error e →
        save cs (some f) opts = .ok (cs1, .error e)) ∧
    cs1.changes = cs.changes ∧ cs1.errors = cs.errors ∧
    (rollback cs1).changes = .obj [] ∧ (rollback cs1).errors = .obj [] :=
  save_spec cs cs1 opts hexec

def csC6 : Changeset :=
  { contentId := 0, validatorId := 0, content := .obj [],
    changes := .obj [("name", .str "foo")], errors := .obj [],
    relayCache := [], running := [], skipValidate := false }

def csC6' : Changeset :=
  { contentId := 0, validatorId := 0, content := .obj [("name", .str "foo")],
    changes := .obj [("name", .str "foo")], errors := .obj [],
    relayCache := [], running := [], skipValidate := false }

theorem C6_save_semantics_witness :
    execute csC6 = .ok csC6' ∧
    save csC6 none Val.undef = .ok (rollback csC6', .ok .selfChangeset) ∧
    (fun f : Val → Val → Except String Val =>
      save csC6 (some f) Val.undef = .ok (csC6', .error "boom"))
      (fun _ _ => .error "boom") :=
  ⟨by decide,
   (C6_save_semantics csC6 csC6' Val.undef (by decide)).1,
   (C6_save_semantics csC6 csC6' Val.undef (by decide)).2.2.1
     (fun _ _ => .error "boom") "boom" rfl⟩

theorem hreadPath_single_congr {H H2 : Heap} {r : Nat} (j : String)
    (hf : hfind H r = hfind H2 r) :
    hreadPath H r [j] = hreadPath H2 r [j] := by
  simp only [hreadPath]
  rw [hf]

/-- C7 (amended): `snapshot()` shallow-copies the buffers, so a subsequent
top-level (single-segment) buffer write never alters any top-level read of
the previously captured snapshot; and `restore(s)` replaces both buffers
wholesale, so its changes and errors — and a snapshot taken right after —
are exactly the captured pair.  (Nested writes are excluded: the shallow
copy shares nested objects, see the counterexample.) -/
theorem C7_snapshot_shallow_restore :
    (∀ (h : Heap) (rc re : Nat), rc ∈ h.map Prod.fst →
        ∀ (k : String) (x : Val) (j : String),
          hreadPath (deepSetH (snapshotH h rc re).1 rc [k] x)
              (snapshotH h rc re).2.1 [j] =
            hreadPath (snapshotH h rc re).1 (snapshotH h rc re).2.1 [j]) ∧
    (∀ (cs : Changeset) (c e : Val),
        (restore cs c e).changes = c ∧ (restore cs c e).errors = e ∧
        snapshotOf (restore cs c e) = (c, e)) := by
  refine ⟨?_, fun cs c e => ⟨rfl, rfl, rfl⟩⟩
  intro h rc re hrc k x j
  have hne : ¬ freshRef h = rc := freshRef_ne hrc
  have hsc : (snapshotH h rc re).2.1 = freshRef h := rfl
  rw [hsc]
  refine hreadPath_single_congr j ?_
  show hfind (hstore (snapshotH h rc re).1 rc
      (hoSet ((hfind (snapshotH h rc re).1 rc).getD []) k (HVal.prim x)))
      (freshRef h) = hfind (snapshotH h rc re).1 (freshRef h)
  rw [hfind_hstore]
  exact if_neg hne

def hC7 : Heap :=
  [(0, [("a", HVal.ref 1)]), (1, [("b", HVal.prim (Val.str "v1"))]), (2, [])]

theorem C7_snapshot_shallow_restore_witness :
    (0 ∈ hC7.map Prod.fst) ∧
    hreadPath (deepSetH (snapshotH hC7 0 2).1 0 ["name"] (Val.str "n"))
        (snapshotH hC7 0 2).2.1 ["a"] =
      hreadPath (snapshotH hC7 0 2).1 (snapshotH hC7 0 2).2.1 ["a"] :=
  ⟨by decide,
   C7_snapshot_shallow_restore.1 hC7 0 2 (by decide) "name" (Val.str "n") "a"⟩

/-- C7 as stated is false for nested state: `snapshot()` shallow-copies the
changes object, so the copy shares the nested object under `"a"`; a later
in-place `deepSet` of `"a.b"` on the live buffer is visible through the
previously captured snapshot, which now reads `"v2"` where it read `"v1"`
when taken. -/
theorem C7_claim_counterexample :
    hreadPath (snapshotH hC7 0 2).1 (snapshotH hC7 0 2).2.1 ["a", "b"] =
        some (Val.str "v1") ∧
    hreadPath (deepSetH (snapshotH hC7 0 2).1 0 ["a", "b"] (Val.str "v2"))
        (snapshotH hC7 0 2).2.1 ["a", "b"] = some (Val.str "v2") := by
  decide

/-- C8 (amended): the path-delete utility removes a two-segment path's leaf
and prunes the parent entry exactly when the nested mapping becomes empty;
removes only the leaf of a three-segment path (no pruning); and for a path
of four or more segments raises "Nested level N is not supported yet" only
when the mapping has an own key other than the literal dotted path for the
`for..in` loop to reach the depth check — on an empty mapping the call
silently returns it unchanged, and when the dotted string is itself a
literal own key the entry is silently deleted flat. -/
theorem C8_delete_key_depth_semantics :
    (∀ (fs nfs : Fields), fget fs "a" = some (.obj nfs) →
        fhasKey fs "a.b" = false →
        deleteKeysFromObject1 (.obj fs) "a.b" =
          .ok (.obj (if (fdel nfs "b").isEmpty then fdel fs "a"
                     else fset fs "a" (.obj (fdel nfs "b"))))) ∧
    (∀ (fs nfs dfs : Fields), fget fs "a" = some (.obj nfs) →
        fget nfs "b" = some (.obj dfs) → fhasKey fs "a.b.c" = false →
        deleteKeysFromObject1 (.obj fs) "a.b.c" =
          .ok (.obj (fset fs "a" (.obj (fset nfs "b" (.obj (fdel dfs "c"))))))) ∧
    (∀ (fs : Fields) (p : String), p ∈ fkeys fs → ¬ p = "a.b.c.d" →
        deleteKeysFromObject1 (.obj fs) "a.b.c.d" =
          .error "Nested level 4 is not supported yet") ∧
    deleteKeysFromObject1 (.obj []) "a.b.c.d" = .ok (.obj []) ∧
    (∀ v : Val, deleteKeysFromObject1 (.obj [("a.b.c.d", v)]) "a.b.c.d" =
        .ok (.obj [])) := by
  refine ⟨?_, ?_, ?_, rfl, ?_⟩
  · intro fs nfs hga hflat
    exact deleteKeysFromObject1_pair (by decide) hga hflat
  · intro fs nfs dfs hga hgb hflat
    exact deleteKeysFromObject1_triple (by decide) hga hgb hflat
  · intro fs p hp hpe
    have h := deleteKeysFromObject1_deep (by decide :
        segsOf "a.b.c.d" = "a" :: "b" :: "c" :: "d" :: []) hp hpe
    rw [show ("Nested level " ++ toString (segsOf "a.b.c.d").length ++
        " is not supported yet") = "Nested level 4 is not supported yet" by decide] at h
    exact h
  · intro v
    show (do
      let fs' ← delPropLoop "a.b.c.d" (fkeys [("a.b.c.d", v)]) [("a.b.c.d", v)]
      pure (Val.obj fs')) = _
    rw [show delPropLoop "a.b.c.d" (fkeys [("a.b.c.d", v)]) [("a.b.c.d", v)] =
        delPropLoop "a.b.c.d" [] (fdel [("a.b.c.d", v)] "a.b.c.d") from rfl]
    rfl

theorem C8_delete_key_depth_semantics_witness :
    (fget [("a", Val.obj [("b", Val.num 1)])] "a" = some (.obj [("b", Val.num 1)]) ∧
      fhasKey [("a", Val.obj [("b", Val.num 1)])] "a.b" = false ∧
      ("x" ∈ fkeys [("x", Val.num 1)] ∧ ¬ "x" = "a.b.c.d")) ∧
    deleteKeysFromObject1 (.obj [("a", .obj [("b", .num 1)])]) "a.b" =
      .ok (.obj (if (fdel [("b", Val.num 1)] "b").isEmpty
                 then fdel [("a", Val.obj [("b", Val.num 1)])] "a"
                 else fset [("a", Val.obj [("b", Val.num 1)])] "a"
                   (.obj (fdel [("b", Val.num 1)] "b")))) ∧
    deleteKeysFromObject1 (.obj [("x", .num 1)]) "a.b.c.d" =
      .error "Nested level 4 is not supported yet" ∧
    deleteKeysFromObject1 (.obj [("a.b.c.d", Val.num 7)]) "a.b.c.d" = .ok (.obj []) :=
  ⟨⟨by decide, by decide, by decide, by decide⟩,
   C8_delete_key_depth_semantics.1 [("a", Val.obj [("b", Val.num 1)])] [("b", Val.num 1)]
     (by decide) (by decide),
   C8_delete_key_depth_semantics.2.2.1 [("x", Val.num 1)] "x" (by decide) (by decide),
   C8_delete_key_depth_semantics.2.2.2.2 (Val.num 7)⟩

/-- C8 as stated is false about deep paths: the depth check sits inside the
`for..in` loop over the mapping's own keys, so deleting "a.b.c.d" from the
empty mapping silently returns it unchanged (no error), and deleting it from
a mapping whose literal own key is the dotted string "a.b.c.d" takes the
`elem === prop` branch and silently deletes the entry flat — in neither case
is the "unsupported nesting depth" error raised. -/
theorem C8_claim_counterexample :
    deleteKeysFromObject1 (.obj []) "a.b.c.d" = .ok (.obj []) ∧
    deleteKeysFromObject1 (.obj [("a.b.c.d", .num 1)]) "a.b.c.d" =
      .ok (.obj []) := by
  decide

/-- C9 (amended): a `write` on a changeset whose `skipValidate` option is
unset publishes exactly one `beforeValidation` and one `afterValidation`
event, both carrying the written key, for a synchronous as well as for a
resolved asynchronous validator outcome.  (With `skipValidate` set the
events do not fire at all, see the counterexample.) -/
theorem C9_events_once_unless_skipped {cs : Changeset} {key : String} {value : Val}
    {outcome : VOutcome} {cs' : Changeset} {evs : List VEvent}
    (hskip : cs.skipValidate = false)
    (hok : validateAndSet cs key value outcome = .ok (cs', evs)) :
    evs = [.beforeValidation key, .afterValidation key] := by
  unfold validateAndSet at hok
  rw [hskip] at hok
  simp only [Bool.false_eq_true, if_false] at hok
  cases outcome with
  | sync raw =>
      dsimp only at hok
      rcases hsp : setPropertyStep cs (coerceValidation raw) key value
          (recursivelyGet key cs.content) with e | c
      · rw [hsp] at hok
        simp [Bind.bind, Except.bind] at hok
      · rw [hsp] at hok
        simp only [Bind.bind, Except.bind, pure, Except.pure, Except.ok.injEq,
          Prod.mk.injEq] at hok
        exact hok.2.symm
  | async resolved =>
      dsimp only at hok
      rcases hsp : setPropertyStep (setIsValidating (setIsValidating cs key true) key false)
          resolved key value (recursivelyGet key cs.content) with e | c
      · rw [hsp] at hok
        simp [Bind.bind, Except.bind] at hok
      · rw [hsp] at hok
        simp only [Bind.bind, Except.bind, pure, Except.pure, Except.ok.injEq,
          Prod.mk.injEq] at hok
        exact hok.2.symm

def csC9 : Changeset := initChangeset 0 0 (.obj [("name", .str "Jim Bob")]) false

def csC9' : Changeset :=
  { contentId := 0, validatorId := 0, content := .obj [("name", .str "Jim Bob")],
    changes := .obj [("name", .str "a")], errors := .obj [],
    relayCache := [], running := [], skipValidate := false }

theorem C9_events_once_unless_skipped_witness :
    (csC9.skipValidate = false ∧
      (∃ evs : List VEvent,
        validateAndSet csC9 "name" (.str "a") (.async (.bool true)) = .ok (csC9', evs))) ∧
    (∀ evs : List VEvent,
        validateAndSet csC9 "name" (.str "a") (.async (.bool true)) = .ok (csC9', evs) →
        evs = [.beforeValidation "name", .afterValidation "name"]) :=
  ⟨⟨rfl, ⟨[VEvent.beforeValidation "name", VEvent.afterValidation "name"], by decide⟩⟩,
   fun evs hok => C9_events_once_unless_skipped rfl hok⟩

/-- C9 as stated is false when the `skipValidate` option is set: the write
still goes through `_setProperty`, but neither `beforeValidation` nor
`afterValidation` fires (the event list is empty, not one of each). -/
theorem C9_claim_counterexample :
    (validateAndSet (initChangeset 0 0 (.obj []) true) "name" (.str "x")
        (.sync (.bool true))).map
      (fun p => (p.2.count (VEvent.beforeValidation "name"),
                 p.2.count (VEvent.afterValidation "name"))) = .ok (0, 0) := by
  decide
